import Mathlib

/-!
# Verification of the gex shell's parser and executor core

This file gives a shallow embedding, in Lean 4, of the command parser
(`internal/cli`, file with `Parse`, `parseCommand`, `parseSimpleCommand`,
`parseToken`, `parseRedirect`) and of the execution engine
(`internal/executor`, `Execute`, `executeSingle`, `executeBuiltin`,
`executeExternal`, `executeForeground`, `executeBackground`,
`executePipeline`) of the gex shell, together with theorems settling the
frozen behavioural claims about them.

Modelling conventions:

* The Go parser indexes the input string byte by byte (`p.input[p.pos]`)
  and widens each byte with `rune(ch)` for `unicode.IsSpace`.  The
  embedding represents the input as `List Char` and mirrors the byte-level
  scan character by character; on inputs whose characters are single-byte
  (all inputs appearing in the claims) the two views coincide.
* Go errors are `errors.New`/`fmt.Errorf` values compared by message text.
  The parser's four messages are represented by the inductive `ParseErr`
  (the executor keeps plain `String` errors because `main` compares the
  message against the literal string "exit").
* OS effects (PATH lookup, process start, child exit status, built-in
  handlers, redirection file opening) are oracles bundled in the `OS`
  structure, and the executor records its externally visible actions in a
  trace of `Event`s; spawning, synchronous waiting and detached background
  waiting are distinct events, so "blocks on the child" is visible in the
  trace.
-/

namespace Gex

/-- Models Go's `unicode.IsSpace(rune(ch))` applied to a single byte `ch`:
true exactly for tab, newline, vertical tab, form feed, carriage return,
space, next line (U+0085) and no-break space (U+00A0). -/
def isSpaceB (c : Char) : Bool :=
  c = '\t' || c = '\n' || c = '\u000B' || c = '\u000C' || c = '\r' ||
    c = ' ' || c = '\u0085' || c = ' '

/-- The characters that terminate an unquoted token in `parseToken`:
whitespace or one of the four metacharacters. -/
def isBreakB (c : Char) : Bool :=
  isSpaceB c || c = '|' || c = '>' || c = '<' || c = '&'

/-- `RedirectType` from the parser source (`RedirectNone` is never stored:
`parseRedirect` either returns a concrete redirect or `nil`). -/
inductive RedirectType where
  | out
  | append
  | inFile
  | err
  | both
deriving DecidableEq, Repr

/-- `Redirect` from the parser source: an operator kind and a target path. -/
structure Redirect where
  type : RedirectType
  target : String
deriving DecidableEq, Repr

/-- `Command` from the parser source.  `pipes` holds the pipeline
successors of the head stage (`Pipes []*Command` in Go); the parser only
ever fills it on the command returned by `parseCommand`, stages inside
`pipes` always carry an empty `pipes` themselves. -/
inductive Command where
  | mk (name : String) (args : List String) (pipes : List Command)
      (redirect : Option Redirect) (background : Bool)

/-- Field accessor for `Command.Name`. -/
def Command.name : Command → String
  | .mk n _ _ _ _ => n

/-- Field accessor for `Command.Args`. -/
def Command.args : Command → List String
  | .mk _ a _ _ _ => a

/-- Field accessor for `Command.Pipes`. -/
def Command.pipes : Command → List Command
  | .mk _ _ p _ _ => p

/-- Field accessor for `Command.Redirect`. -/
def Command.redirect : Command → Option Redirect
  | .mk _ _ _ r _ => r

/-- Field accessor for `Command.Background`. -/
def Command.background : Command → Bool
  | .mk _ _ _ _ b => b

/-- The four error messages the Go parser can produce, as an inductive:
`emptyInput` is `errors.New("empty command")`, `unexpectedEnd` is
`errors.New("unexpected end of input")`, `unterminatedQuote` is
`errors.New("unterminated quote")`, and `emptyToken` is
`errors.New("empty token")`. -/
inductive ParseErr where
  | emptyInput
  | unexpectedEnd
  | unterminatedQuote
  | emptyToken
deriving DecidableEq, Repr

/-- `skipWhitespace`: drop the longest leading run of whitespace. -/
def skipWs : List Char → List Char
  | [] => []
  | c :: rest => if isSpaceB c then skipWs rest else c :: rest

/-- The scanning loop of `parseToken`, one constructor case per iteration of
the Go `for p.pos < p.length` loop.  `quoted`/`qc` are the `quoted` and
`quoteChar` variables, `acc` the `strings.Builder`.  The post-loop
unterminated-quote check appears in the exhausted-input case; in the
backslash-at-end-of-input case (where Go's escape condition
`p.pos+1 < p.length` is false) the loop's final iteration writes the
backslash itself and then exits, which is inlined there. -/
def tokLoop : List Char → Bool → Char → List Char →
    Except ParseErr (List Char × List Char)
  | [], quoted, _, acc =>
      if quoted then .error .unterminatedQuote else .ok (acc, [])
  | c :: rest, quoted, qc, acc =>
      if !quoted && (c = '"' || c = '\'') then
        tokLoop rest true c acc
      else if quoted && c = qc then
        tokLoop rest false (Char.ofNat 0) acc
      else if c = '\\' then
        match rest with
        | n :: rest2 => tokLoop rest2 quoted qc (acc ++ [n])
        | [] =>
          if quoted then .error .unterminatedQuote else .ok (acc ++ [c], [])
      else if !quoted && isBreakB c then .ok (acc, c :: rest)
      else tokLoop rest quoted qc (acc ++ [c])

/-- `parseToken`: skip whitespace, fail on exhausted input, run the scan
loop, reject the empty token. -/
def parseToken (l : List Char) : Except ParseErr (String × List Char) :=
  match skipWs l with
  | [] => .error .unexpectedEnd
  | c :: rest =>
    match tokLoop (c :: rest) false (Char.ofNat 0) [] with
    | .error e => .error e
    | .ok (acc, r) =>
      if acc.isEmpty then .error .emptyToken else .ok (String.mk acc, r)

/-- The collection loop of `parseRedirectTarget`: take characters until
whitespace, a pipe or an ampersand. -/
def targLoop : List Char → List Char × List Char
  | [] => ([], [])
  | c :: rest =>
    if isSpaceB c || c = '|' || c = '&' then ([], c :: rest)
    else
      let (t, r) := targLoop rest
      (c :: t, r)

/-- `parseRedirectTarget`: skip whitespace then collect the target path. -/
def parseRedirectTarget (l : List Char) : String × List Char :=
  (String.mk (targLoop (skipWs l)).1, (targLoop (skipWs l)).2)

/-- `parseRedirect`: recognise `>>`, `>`, `<`, `2>` and `&>` at the current
position and consume the operator plus its target, or return `none` leaving
the input untouched (the Go function returns `nil` without advancing).
The Go `switch` inspects the current character and, for `>`, `2` and `&`,
the next one (`p.pos+1 < p.length && p.input[p.pos+1] == ...`). -/
def parseRedirect (l : List Char) : Option (Redirect × List Char) :=
  match l with
  | [] => none
  | c :: rest =>
    if c = '>' then
      match rest with
      | d :: rest2 =>
        if d = '>' then
          some (⟨.append, (parseRedirectTarget rest2).1⟩,
            (parseRedirectTarget rest2).2)
        else
          some (⟨.out, (parseRedirectTarget (d :: rest2)).1⟩,
            (parseRedirectTarget (d :: rest2)).2)
      | [] =>
        some (⟨.out, (parseRedirectTarget []).1⟩, (parseRedirectTarget []).2)
    else if c = '<' then
      some (⟨.inFile, (parseRedirectTarget rest).1⟩,
        (parseRedirectTarget rest).2)
    else if c = '2' then
      match rest with
      | d :: rest2 =>
        if d = '>' then
          some (⟨.err, (parseRedirectTarget rest2).1⟩,
            (parseRedirectTarget rest2).2)
        else none
      | [] => none
    else if c = '&' then
      match rest with
      | d :: rest2 =>
        if d = '>' then
          some (⟨.both, (parseRedirectTarget rest2).1⟩,
            (parseRedirectTarget rest2).2)
        else none
      | [] => none
    else none

/-- Functional update for the `cmd.Background = true` assignment. -/
def Command.setBackground : Command → Bool → Command
  | .mk n a p r _, b => .mk n a p r b

/-- Functional update for the `cmd.Redirect = redirect` assignment. -/
def Command.setRedirect : Command → Option Redirect → Command
  | .mk n a p _ bg, r => .mk n a p r bg

/-- Functional update for `cmd.Args = append(cmd.Args, arg)`. -/
def Command.pushArg : Command → String → Command
  | .mk n a p r bg, s => .mk n (a ++ [s]) p r bg

/-- Functional update for `cmd.Pipes = append(cmd.Pipes, nextCmd)`. -/
def Command.pushPipe : Command → Command → Command
  | .mk n a p r bg, c => .mk n a (p ++ [c]) r bg

/-- The argument/redirection loop of `parseSimpleCommand` (the Go
`for p.pos < p.length` loop after the name token), with an explicit
iteration budget `fuel` so that the recursion is structural and therefore
computable by the kernel.  Each iteration skips whitespace; on exhausted
input it stops; a final lone `&` sets `Background` and consumes it (Go
checks `p.pos == p.length-1`, i.e. the ampersand is the last character of
the whole line, which in this remaining-suffix representation is
`skipWs l = ['&']`); a `|` stops the stage leaving the pipe for
`parseCommand`; otherwise a redirect or an argument token is consumed.
Every iteration consumes at least one character, so any budget larger than
the input length is inexhaustible; `argLoop` below fixes such a budget and
`argLoop_eq` proves the budget-free unfolding equation of the Go loop. -/
def argLoopF : Nat → List Char → Command → Except ParseErr (Command × List Char)
  | 0, l, cmd => .ok (cmd, l)
  | fuel + 1, l, cmd =>
    match skipWs l with
    | [] => .ok (cmd, [])
    | c :: rest =>
      if c = '&' && rest.isEmpty then
        .ok (cmd.setBackground true, [])
      else if c = '|' then
        .ok (cmd, c :: rest)
      else
        match parseRedirect (c :: rest) with
        | some (rd, r) => argLoopF fuel r (cmd.setRedirect (some rd))
        | none =>
          match parseToken (c :: rest) with
          | .error e => .error e
          | .ok (arg, r) => argLoopF fuel r (cmd.pushArg arg)

/-- The argument/redirection loop with its inexhaustible budget. -/
def argLoop (l : List Char) (cmd : Command) :
    Except ParseErr (Command × List Char) :=
  argLoopF (l.length + 1) l cmd

/-- `parseSimpleCommand`: skip whitespace, fail with "unexpected end of
input" on exhausted input, read the command name, then run the
argument/redirection loop on a fresh `Command`. -/
def parseSimpleCommand (l : List Char) :
    Except ParseErr (Command × List Char) :=
  match skipWs l with
  | [] => .error .unexpectedEnd
  | c :: rest =>
    match parseToken (c :: rest) with
    | .error e => .error e
    | .ok (name, r) => argLoop r (.mk name [] [] none false)

/-- The pipe-chaining loop of `parseCommand` (the Go
`for p.pos < p.length && p.peek() == '|'` loop), with an explicit
iteration budget like `argLoopF`: while input remains and the next
character is a pipe, consume it, skip whitespace, parse another
simple-command stage and append it to the head command's `Pipes`. -/
def pipeLoopF : Nat → List Char → Command → Except ParseErr (Command × List Char)
  | 0, l, cmd => .ok (cmd, l)
  | fuel + 1, l, cmd =>
    match l with
    | [] => .ok (cmd, [])
    | c :: rest =>
      if c = '|' then
        match parseSimpleCommand (skipWs rest) with
        | .error e => .error e
        | .ok (next, r) => pipeLoopF fuel r (cmd.pushPipe next)
      else .ok (cmd, c :: rest)

/-- The pipe-chaining loop with its inexhaustible budget. -/
def pipeLoop (l : List Char) (cmd : Command) :
    Except ParseErr (Command × List Char) :=
  pipeLoopF (l.length + 1) l cmd

/-- `parseCommand`: parse the head stage, then chain piped stages onto it. -/
def parseCommand (l : List Char) : Except ParseErr (Command × List Char) :=
  match parseSimpleCommand l with
  | .error e => .error e
  | .ok (cmd, r) => pipeLoop r cmd

/-- `Parse`: reject the empty string with "empty command", otherwise run
`parseCommand` on the characters and return the command (Go discards the
parser state, including any unconsumed input, which is always empty or
impossible here). -/
def Parse (s : String) : Except ParseErr Command :=
  if s = "" then .error .emptyInput
  else
    match parseCommand s.data with
    | .error e => .error e
    | .ok (cmd, _) => .ok cmd

/-! ## Executor model

The executor (`internal/executor`) talks to the operating system: PATH
lookup through `os.Stat`, process start/wait through `os/exec`, built-in
handlers doing I/O, redirection files through `os.Create`/`os.Open`.
Those OS outcomes are oracles collected in the `OS` structure, and every
externally visible action of the executor is recorded in a trace of
`Event`s, so that properties such as "no process is spawned" or "the
caller blocks on the children" are statements about the trace. -/

/-- One externally visible action of the executor. -/
inductive Event where
  /-- A `findExecutable` PATH resolution was performed for `name`. -/
  | resolveExec (name : String)
  /-- `Cmd.Start()` was called for the process `path` with `args`. -/
  | start (path : String) (args : List String)
  /-- The calling goroutine blocks until the process `path` exits
  (`Cmd.Wait()` called synchronously, directly or through the pipeline
  wait-group). -/
  | waitSync (path : String)
  /-- A detached goroutine (not the caller) owns the wait for `path`
  (background dispatch). -/
  | detachWait (path : String)
  /-- The job announcement `[1] pid` was printed. -/
  | printJob (pid : Nat)
  /-- The built-in handler `name` was invoked with `args`. -/
  | runBuiltin (name : String) (args : List String)
deriving DecidableEq, Repr

/-- Oracles for every OS outcome the executor consumes.
`resolve` is the outcome of `findExecutable` (the PATH scan over the
filesystem): `some path` when a regular executable file is found, `none`
when the scan fails.  `startErr` is the outcome of `Cmd.Start()` (`none` =
started, `some msg` = the Go error message).  `exitStatus` is the exit
code the child eventually reports: Go's `Cmd.Wait()` returns `nil` when it
is zero and an `exec.ExitError` whose message is `exit status N`
otherwise.  `builtinRes` is the result of the built-in handler of the
given name on the given arguments (`none` = nil error).  `redirErr` is the
outcome of the `os.Create`/`os.OpenFile`/`os.Open` call performed by
`setupRedirections` for a given redirect.  `pid` is the process id the OS
assigns to a started path. -/
structure OS where
  resolve : String → Option String
  startErr : String → List String → Option String
  exitStatus : String → List String → Nat
  builtinRes : String → List String → Option String
  redirErr : Redirect → Option String
  pid : String → Nat

/-- The alias table of the shell `Session` (`map[string]string` in Go),
as an association list; `lookupAlias` is the map lookup.  Only the alias
table of the Session is consumed by the executor paths under study (the
working directory only flows into spawned processes, which the oracles
absorb). -/
structure Session where
  aliases : List (String × String)

/-- Go map lookup `aliases[cmd.Name]`. -/
def lookupAlias (aliases : List (String × String)) (n : String) :
    Option String :=
  (aliases.find? (fun p => p.1 = n)).map (fun p => p.2)

/-- The accumulator loop behind `strings.Fields`: split on runs of
whitespace, dropping empty fields.  `acc` holds the current field
reversed. -/
def fieldsAux : List Char → List Char → List (List Char)
  | [], acc => if acc.isEmpty then [] else [acc.reverse]
  | c :: rest, acc =>
    if isSpaceB c then
      if acc.isEmpty then fieldsAux rest []
      else acc.reverse :: fieldsAux rest []
    else fieldsAux rest (c :: acc)

/-- Go's `strings.Fields`: the whitespace-separated words of `s`. -/
def fieldsGo (s : String) : List String :=
  (fieldsAux s.data []).map String.mk

/-- `ExpandAliases` from `internal/cli/commands.go`: if the command name
has an alias, the expansion's first whitespace-separated word replaces the
name and the remaining words are prepended to the arguments (the Go
function mutates `cmd` in place; here the updated command is returned). -/
def ExpandAliases (cmd : Command) (aliases : List (String × String)) :
    Command :=
  match lookupAlias aliases cmd.name with
  | none => cmd
  | some exp =>
    match fieldsGo exp with
    | [] => cmd
    | w :: ws =>
      match cmd with
      | .mk _ a p r b => .mk w (ws ++ a) p r b

/-- The domain of the `builtinCommands` registry map in
`internal/cli/commands.go` (all forty-six registered names, in the order
they appear in the source). -/
def builtinNames : List String :=
  ["cd", "pwd", "echo", "exit", "help", "history", "alias", "unalias",
   "env", "export", "which", "type",
   "ls", "mkdir", "rmdir", "rm", "cp", "mv", "touch",
   "cat", "head", "tail", "wc", "grep", "sort",
   "ps", "kill", "df", "du", "free", "uptime", "uname",
   "find", "locate",
   "chmod", "chown", "chgrp",
   "ping", "wget", "curl", "netstat",
   "tar", "gzip", "gunzip", "zip", "unzip"]

/-- `IsBuiltin` from `internal/cli/commands.go`: membership in the
registry map. -/
def IsBuiltin (name : String) : Bool :=
  builtinNames.contains name

/-- The names handled by the `switch cmd.Name` dispatch in
`executeBuiltin` (twelve cases; every other name falls to the default
branch). -/
def dispatchedBuiltins : List String :=
  ["cd", "pwd", "echo", "exit", "help", "history", "alias", "unalias",
   "env", "export", "which", "type"]

/-- Convert a Go error value (`nil` or a message) into the executor's
result type. -/
def toRes : Option String → Except String Unit
  | none => .ok ()
  | some e => .error e

/-- `executeBuiltin`: the `switch cmd.Name` dispatch.  Each of the twelve
handled names invokes the matching `builtin.X` handler (oracle
`builtinRes`); any other name returns the
`unknown built-in command: <name>` error without touching the OS. -/
def executeBuiltin (os : OS) (cmd : Command) :
    List Event × Except String Unit :=
  if cmd.name = "cd" then
    ([.runBuiltin "cd" cmd.args], toRes (os.builtinRes "cd" cmd.args))
  else if cmd.name = "pwd" then
    ([.runBuiltin "pwd" cmd.args], toRes (os.builtinRes "pwd" cmd.args))
  else if cmd.name = "echo" then
    ([.runBuiltin "echo" cmd.args], toRes (os.builtinRes "echo" cmd.args))
  else if cmd.name = "exit" then
    ([.runBuiltin "exit" cmd.args], toRes (os.builtinRes "exit" cmd.args))
  else if cmd.name = "help" then
    ([.runBuiltin "help" cmd.args], toRes (os.builtinRes "help" cmd.args))
  else if cmd.name = "history" then
    ([.runBuiltin "history" cmd.args],
      toRes (os.builtinRes "history" cmd.args))
  else if cmd.name = "alias" then
    ([.runBuiltin "alias" cmd.args], toRes (os.builtinRes "alias" cmd.args))
  else if cmd.name = "unalias" then
    ([.runBuiltin "unalias" cmd.args],
      toRes (os.builtinRes "unalias" cmd.args))
  else if cmd.name = "env" then
    ([.runBuiltin "env" cmd.args], toRes (os.builtinRes "env" cmd.args))
  else if cmd.name = "export" then
    ([.runBuiltin "export" cmd.args],
      toRes (os.builtinRes "export" cmd.args))
  else if cmd.name = "which" then
    ([.runBuiltin "which" cmd.args], toRes (os.builtinRes "which" cmd.args))
  else if cmd.name = "type" then
    ([.runBuiltin "type" cmd.args], toRes (os.builtinRes "type" cmd.args))
  else
    ([], .error ("unknown built-in command: " ++ cmd.name))

/-- `setupRedirections`: open the redirection target (oracle `redirErr`);
the stream rewiring itself is not observable in the properties under
study. -/
def setupRedirections (os : OS) : Option Redirect → Except String Unit
  | none => .ok ()
  | some rd => toRes (os.redirErr rd)

/-- `executeForeground`: start the child, then wait synchronously.
`Cmd.Wait` yields `nil` for a zero exit status and an `exec.ExitError`
with message `exit status N` for a nonzero one. -/
def executeForeground (os : OS) (path : String) (args : List String) :
    List Event × Except String Unit :=
  match os.startErr path args with
  | some e => ([.start path args], .error e)
  | none =>
    ([.start path args, .waitSync path],
      if os.exitStatus path args = 0 then .ok ()
      else .error ("exit status " ++ toString (os.exitStatus path args)))

/-- `executeBackground`: start the child, print the job announcement, hand
the wait to a detached goroutine and return without blocking. -/
def executeBackground (os : OS) (path : String) (args : List String) :
    List Event × Except String Unit :=
  match os.startErr path args with
  | some e => ([.start path args], .error e)
  | none => ([.start path args, .printJob (os.pid path), .detachWait path], .ok ())

/-- `executeExternal`: resolve the name (failure becomes
`command not found: <name>`), set up redirections, then dispatch to
background or foreground execution. -/
def executeExternal (os : OS) (cmd : Command) :
    List Event × Except String Unit :=
  match os.resolve cmd.name with
  | none => ([.resolveExec cmd.name], .error ("command not found: " ++ cmd.name))
  | some path =>
    match setupRedirections os cmd.redirect with
    | .error e => ([.resolveExec cmd.name], .error e)
    | .ok _ =>
      if cmd.background then
        ((.resolveExec cmd.name) :: (executeBackground os path cmd.args).1,
          (executeBackground os path cmd.args).2)
      else
        ((.resolveExec cmd.name) :: (executeForeground os path cmd.args).1,
          (executeForeground os path cmd.args).2)

/-- `executeSingle`: expand aliases, then dispatch on `IsBuiltin`. -/
def executeSingle (os : OS) (sess : Session) (cmd : Command) :
    List Event × Except String Unit :=
  let cmd2 := ExpandAliases cmd sess.aliases
  if IsBuiltin cmd2.name then executeBuiltin os cmd2
  else executeExternal os cmd2

/-- The first loop of `executePipeline`: walk the stages in order; a
built-in stage aborts with `built-in commands in pipelines not yet
supported`, an unresolvable stage aborts with `command not found`;
otherwise collect the resolved paths and argument lists.  No process is
started in this phase. -/
def pipeBuild (os : OS) : List Command →
    List Event × Except String (List (String × List String))
  | [] => ([], .ok [])
  | c :: cs =>
    if IsBuiltin c.name then
      ([], .error "built-in commands in pipelines not yet supported")
    else
      match os.resolve c.name with
      | none => ([.resolveExec c.name], .error ("command not found: " ++ c.name))
      | some path =>
        ((.resolveExec c.name) :: (pipeBuild os cs).1,
          (pipeBuild os cs).2.map (fun rest => (path, c.args) :: rest))

/-- The second loop of `executePipeline`: start every prepared stage; a
start failure aborts immediately (stages already started stay started). -/
def pipeStart (os : OS) : List (String × List String) →
    List Event × Except String Unit
  | [] => ([], .ok ())
  | (path, args) :: rest =>
    match os.startErr path args with
    | some e => ([.start path args], .error e)
    | none => ((.start path args) :: (pipeStart os rest).1, (pipeStart os rest).2)

/-- `executePipeline`: prepare all stages (classification and resolution),
start them all, then block on the wait-group until every stage has exited
(`wg.Wait()` — the caller waits regardless of the `Background` flag, which
this function never reads; it reads no aliases either).  Pipe file
descriptors (`os.Pipe`) carry no observable behaviour here and their
creation is modelled as succeeding. -/
def executePipeline (os : OS) (cmd : Command) :
    List Event × Except String Unit :=
  match pipeBuild os (cmd :: cmd.pipes) with
  | (ev, .error e) => (ev, .error e)
  | (ev, .ok cmds) =>
    match pipeStart os cmds with
    | (ev2, .error e) => (ev ++ ev2, .error e)
    | (ev2, .ok _) =>
      (ev ++ ev2 ++ cmds.map (fun pc => .waitSync pc.1), .ok ())

/-- `Execute`: nil check, then pipeline versus single dispatch
(`len(cmd.Pipes) > 0`). -/
def Execute (os : OS) (sess : Session) : Option Command →
    List Event × Except String Unit
  | none => ([], .error "nil command")
  | some cmd =>
    if 0 < cmd.pipes.length then executePipeline os cmd
    else executeSingle os sess cmd

/-- What the REPL in `main.go` does with the result of `Execute`: no
error continues silently, the literal error message `exit` breaks the
loop, and any other error is printed as `Error: <msg>` before the loop
continues. -/
inductive MainAction where
  | breakLoop
  | continueLoop (printed : Option String)
deriving DecidableEq, Repr

/-- The error handling of the REPL body (`main.go`). -/
def mainStep : Except String Unit → MainAction
  | .ok _ => .continueLoop none
  | .error e => if e = "exit" then .breakLoop else .continueLoop (some ("Error: " ++ e))

/-! ## Token-level stepping lemmas

`plainChar` characters are the ones that flow through `parseToken`
untouched: not whitespace, not a metacharacter, not a quote, not a
backslash. -/

/-- A character consumed literally by the unquoted scanner. -/
def plainChar (c : Char) : Bool :=
  !isSpaceB c && !(c = '|') && !(c = '>') && !(c = '<') && !(c = '&') &&
    !(c = '"') && !(c = '\'') && !(c = '\\')

/-- A nonempty token of plain characters. -/
def plainTok (t : List Char) : Bool :=
  !t.isEmpty && t.all plainChar

/-- The rest of the input after a token: exhausted, or starting with a
character that terminates an unquoted token. -/
def breakOrEmpty (r : List Char) : Prop :=
  r = [] ∨ ∃ c tl, r = c :: tl ∧ isBreakB c = true

/-- Functional update for `append(cmd.Args, xs...)`. -/
def Command.appendArgs : Command → List String → Command
  | .mk n a p r b, xs => .mk n (a ++ xs) p r b

/-- Functional update for `append(cmd.Pipes, xs...)`. -/
def Command.appendPipes : Command → List Command → Command
  | .mk n a p r b, xs => .mk n a (p ++ xs) r b

/-! ## Rendering well-formed command lines

These definitions build the concrete input strings that the general
claims about quoting, pipelining and backgrounding quantify over. -/

/-- `renderArgs as` is one space before each argument:
`" a1 a2 ... an"`. -/
def renderArgs : List (List Char) → List Char
  | [] => []
  | a :: as => ' ' :: (a ++ renderArgs as)

/-- A continuation on which the argument loop can be resumed: the tails
produced by rendering (`" | ..."`, a trailing `"&"` or `" &"`, or the end
of the line). -/
def contOk (pr : List Char) : Prop :=
  pr = [] ∨ pr = ['&'] ∨ (∃ tl, pr = ' ' :: tl) ∨ (∃ tl, pr = '|' :: tl)

/-- One pipeline stage: a name and an argument list, all plain tokens. -/
def wfStage (st : List Char × List (List Char)) : Prop :=
  plainTok st.1 = true ∧ ∀ a ∈ st.2, plainTok a = true

/-- Render one stage: `name arg1 ... argn`. -/
def stageRender (st : List Char × List (List Char)) : List Char :=
  st.1 ++ renderArgs st.2

/-- Render the trailing stages: `" | stage"` for each. -/
def tailRender : List (List Char × List (List Char)) → List Char
  | [] => []
  | st :: ss => ' ' :: '|' :: ' ' :: (stageRender st ++ tailRender ss)

/-- What remains of the trailing stages once the argument loop has eaten
the separator space before the pipe. -/
def afterTail : List (List Char × List (List Char)) → List Char
  | [] => []
  | st :: ss => '|' :: ' ' :: (stageRender st ++ tailRender ss)

/-- The Command a well-formed stage parses to. -/
def mkStage (st : List Char × List (List Char)) : Command :=
  .mk (String.mk st.1) (st.2.map String.mk) [] none false

/-- Recogniser for synchronous-wait events. -/
def isWaitE : Event → Bool
  | .waitSync _ => true
  | _ => false

/-- Recogniser for process-start events. -/
def isStartE : Event → Bool
  | .start _ _ => true
  | _ => false

/-! ## Concrete oracles for witnesses and counterexamples -/

/-- A filesystem where every name resolves under `/bin`, every start
succeeds, and only `/bin/false` exits nonzero (status 1). -/
def osAllOk : OS :=
  ⟨fun n => some ("/bin/" ++ n), fun _ _ => none,
    fun p _ => if p = "/bin/false" then 1 else 0, fun _ _ => none,
    fun _ => none, fun _ => 7⟩

/-- Like `osAllOk` but the names `ll` and `nosuch` do not resolve. -/
def osMissing : OS :=
  ⟨fun n => if n = "ll" || n = "nosuch" then none else some ("/bin/" ++ n),
    fun _ _ => none, fun _ _ => 0, fun _ _ => none, fun _ => none,
    fun _ => 7⟩

theorem skipWs_length (l : List Char) : (skipWs l).length ≤ l.length := by
  induction l with
  | nil => simp [skipWs]
  | cons c rest ih =>
    simp only [skipWs]
    split
    · simp only [List.length_cons]
      omega
    · simp

theorem skipWs_suffix (l : List Char) : (skipWs l).IsSuffix l := by
  induction l with
  | nil => simp [skipWs]
  | cons c rest ih =>
    simp only [skipWs]
    split
    · exact ih.trans (List.suffix_cons c rest)
    · exact List.suffix_rfl

/-- Unfolding of `tokLoop` at a nonempty input, stated so that rewriting
with it never blocks on an unreduced pattern match. -/
theorem tokLoop_cons (c : Char) (rest : List Char) (quoted : Bool) (qc : Char)
    (acc : List Char) :
    tokLoop (c :: rest) quoted qc acc =
      if !quoted && (c = '"' || c = '\'') then
        tokLoop rest true c acc
      else if quoted && c = qc then
        tokLoop rest false (Char.ofNat 0) acc
      else if c = '\\' then
        match rest with
        | n :: rest2 => tokLoop rest2 quoted qc (acc ++ [n])
        | [] =>
          if quoted then .error .unterminatedQuote else .ok (acc ++ [c], [])
      else if !quoted && isBreakB c then .ok (acc, c :: rest)
      else tokLoop rest quoted qc (acc ++ [c]) := by
  cases rest <;> rfl

theorem tokLoop_length (l : List Char) (q : Bool) (qc : Char) (acc : List Char)
    (t r : List Char) (h : tokLoop l q qc acc = .ok (t, r)) :
    r.length + t.length ≤ l.length + acc.length := by
  induction l, q, qc, acc using tokLoop.induct generalizing t r with
  | case1 x acc =>
    simp [tokLoop] at h
  | case2 quoted x acc hq =>
    simp [tokLoop, hq] at h
    simp [h.1, h.2]
  | case3 c rest quoted qc acc h1 ih =>
    rw [tokLoop_cons, if_pos h1] at h
    have := ih _ _ h
    simp only [List.length_cons] at this ⊢
    omega
  | case4 c rest quoted qc acc h1 h2 ih =>
    rw [tokLoop_cons, if_neg h1, if_pos h2] at h
    have := ih _ _ h
    simp only [List.length_cons] at this ⊢
    omega
  | case5 quoted qc acc n rest2 h1 h2 ih =>
    rw [tokLoop_cons, if_neg h1, if_neg h2, if_pos rfl] at h
    have := ih _ _ h
    simp only [List.length_cons, List.length_append, List.length_singleton,
      List.length_nil] at this ⊢
    omega
  | case6 qc acc h1 h2 =>
    rw [tokLoop_cons, if_neg h1, if_neg h2, if_pos rfl] at h
    simp at h
  | case7 quoted qc acc hq h1 h2 =>
    rw [tokLoop_cons, if_neg h1, if_neg h2, if_pos rfl] at h
    simp [hq] at h
    rcases h with ⟨rfl, rfl⟩
    simp only [List.length_nil, List.length_append, List.length_singleton,
      List.length_cons]
    omega
  | case8 c rest quoted qc acc h1 h2 h3 h4 =>
    rw [tokLoop_cons, if_neg h1, if_neg h2, if_neg h3, if_pos h4] at h
    simp only [Except.ok.injEq, Prod.mk.injEq] at h
    rcases h with ⟨rfl, rfl⟩
    simp
  | case9 c rest quoted qc acc h1 h2 h3 h4 ih =>
    rw [tokLoop_cons, if_neg h1, if_neg h2, if_neg h3, if_neg h4] at h
    have := ih _ _ h
    simp only [List.length_cons, List.length_append, List.length_singleton,
      List.length_nil] at this ⊢
    omega

theorem parseToken_length (l : List Char) (s : String) (r : List Char)
    (h : parseToken l = .ok (s, r)) : r.length < l.length := by
  rcases hw : skipWs l with _ | ⟨c, rest⟩
  · simp only [parseToken, hw] at h
    simp at h
  · simp only [parseToken, hw] at h
    rcases ht : tokLoop (c :: rest) false (Char.ofNat 0) [] with e | ⟨acc, r2⟩ <;>
      simp only [ht] at h
    · simp at h
    · have hlen := tokLoop_length _ _ _ _ _ _ ht
      by_cases ha : acc.isEmpty
      · simp only [ha, if_true] at h
        simp at h
      · simp only [ha, if_false, Bool.false_eq_true, ite_false] at h
        simp only [Except.ok.injEq, Prod.mk.injEq] at h
        rcases h with ⟨-, rfl⟩
        have hsw := skipWs_length l
        rw [hw] at hsw
        have hnn : acc.length ≠ 0 := by
          simpa [List.isEmpty_iff_length_eq_zero] using ha
        simp only [List.length_cons, List.length_nil] at hlen hsw
        omega

theorem targLoop_length (l : List Char) : (targLoop l).2.length ≤ l.length := by
  induction l with
  | nil => simp [targLoop]
  | cons c rest ih =>
    simp only [targLoop]
    split
    · simp
    · simp only [List.length_cons]
      omega

theorem parseRedirectTarget_length (l : List Char) :
    (parseRedirectTarget l).2.length ≤ l.length := by
  have h1 := targLoop_length (skipWs l)
  have h2 := skipWs_length l
  simp only [parseRedirectTarget]
  omega

theorem parseRedirect_length (l : List Char) (rd : Redirect) (r : List Char)
    (h : parseRedirect l = some (rd, r)) : r.length < l.length := by
  rcases l with _ | ⟨c, rest⟩
  · exact Option.noConfusion h
  · rw [parseRedirect.eq_def] at h
    dsimp only at h
    by_cases hgt : c = '>'
    · rw [if_pos hgt] at h
      rcases rest with _ | ⟨d, rest2⟩
      · dsimp only at h
        simp only [Option.some.injEq, Prod.mk.injEq] at h
        rcases h with ⟨-, rfl⟩
        simp [parseRedirectTarget, targLoop, skipWs]
      · dsimp only at h
        by_cases hd : d = '>'
        · rw [if_pos hd] at h
          simp only [Option.some.injEq, Prod.mk.injEq] at h
          rcases h with ⟨-, rfl⟩
          exact Nat.lt_of_le_of_lt (parseRedirectTarget_length _)
            (by simp only [List.length_cons]; omega)
        · rw [if_neg hd] at h
          simp only [Option.some.injEq, Prod.mk.injEq] at h
          rcases h with ⟨-, rfl⟩
          exact Nat.lt_of_le_of_lt (parseRedirectTarget_length _)
            (by simp only [List.length_cons]; omega)
    · rw [if_neg hgt] at h
      by_cases hlt : c = '<'
      · rw [if_pos hlt] at h
        simp only [Option.some.injEq, Prod.mk.injEq] at h
        rcases h with ⟨-, rfl⟩
        exact Nat.lt_of_le_of_lt (parseRedirectTarget_length _)
          (by simp only [List.length_cons]; omega)
      · rw [if_neg hlt] at h
        by_cases h2 : c = '2'
        · rw [if_pos h2] at h
          rcases rest with _ | ⟨d, rest2⟩
          · exact Option.noConfusion h
          · dsimp only at h
            by_cases hd : d = '>'
            · rw [if_pos hd] at h
              simp only [Option.some.injEq, Prod.mk.injEq] at h
              rcases h with ⟨-, rfl⟩
              exact Nat.lt_of_le_of_lt (parseRedirectTarget_length _)
                (by simp only [List.length_cons]; omega)
            · rw [if_neg hd] at h
              exact Option.noConfusion h
        · rw [if_neg h2] at h
          by_cases hamp : c = '&'
          · rw [if_pos hamp] at h
            rcases rest with _ | ⟨d, rest2⟩
            · exact Option.noConfusion h
            · dsimp only at h
              by_cases hd : d = '>'
              · rw [if_pos hd] at h
                simp only [Option.some.injEq, Prod.mk.injEq] at h
                rcases h with ⟨-, rfl⟩
                exact Nat.lt_of_le_of_lt (parseRedirectTarget_length _)
                  (by simp only [List.length_cons]; omega)
              · rw [if_neg hd] at h
                exact Option.noConfusion h
          · rw [if_neg hamp] at h
            exact Option.noConfusion h

/-- Any two sufficient budgets give `argLoopF` the same value: the budget
is semantically invisible. -/
theorem argLoopF_irrel (fuel : Nat) :
    ∀ (fuel2 : Nat) (l : List Char) (cmd : Command), l.length < fuel →
      l.length < fuel2 → argLoopF fuel l cmd = argLoopF fuel2 l cmd := by
  induction fuel with
  | zero =>
    intro fuel2 l cmd h1 h2
    omega
  | succ f ih =>
    intro fuel2 l cmd h1 h2
    rcases fuel2 with _ | g
    · omega
    · rw [argLoopF, argLoopF]
      rcases hw : skipWs l with _ | ⟨c, rest⟩
      · rfl
      · have hlen : (c :: rest).length ≤ l.length := by
          rw [← hw]
          exact skipWs_length l
        dsimp only
        by_cases hb : (c = '&' && rest.isEmpty) = true
        · rw [if_pos hb, if_pos hb]
        · rw [if_neg hb, if_neg hb]
          by_cases hp : c = '|'
          · rw [if_pos hp, if_pos hp]
          · rw [if_neg hp, if_neg hp]
            rcases hr : parseRedirect (c :: rest) with _ | ⟨rd, r⟩
            · rcases ht : parseToken (c :: rest) with e | ⟨arg, r⟩
              · rfl
              · have h3 := parseToken_length _ _ _ ht
                simp only [List.length_cons] at h3 hlen
                exact ih g r _ (by omega) (by omega)
            · have h3 := parseRedirect_length _ _ _ hr
              simp only [List.length_cons] at h3 hlen
              exact ih g r _ (by omega) (by omega)

/-- The budget-free unfolding equation of the argument loop: `argLoop` is
exactly the Go loop. -/
theorem argLoop_eq (l : List Char) (cmd : Command) :
    argLoop l cmd =
      match skipWs l with
      | [] => .ok (cmd, [])
      | c :: rest =>
        if c = '&' && rest.isEmpty then
          .ok (cmd.setBackground true, [])
        else if c = '|' then
          .ok (cmd, c :: rest)
        else
          match parseRedirect (c :: rest) with
          | some (rd, r) => argLoop r (cmd.setRedirect (some rd))
          | none =>
            match parseToken (c :: rest) with
            | .error e => .error e
            | .ok (arg, r) => argLoop r (cmd.pushArg arg) := by
  show argLoopF (l.length + 1) l cmd = _
  rw [argLoopF]
  rcases hw : skipWs l with _ | ⟨c, rest⟩
  · rfl
  · have hlen : (c :: rest).length ≤ l.length := by
      rw [← hw]
      exact skipWs_length l
    dsimp only
    by_cases hb : (c = '&' && rest.isEmpty) = true
    · rw [if_pos hb, if_pos hb]
    · rw [if_neg hb, if_neg hb]
      by_cases hp : c = '|'
      · rw [if_pos hp, if_pos hp]
      · rw [if_neg hp, if_neg hp]
        rcases hr : parseRedirect (c :: rest) with _ | ⟨rd, r⟩
        · rcases ht : parseToken (c :: rest) with e | ⟨arg, r⟩
          · rfl
          · have h3 := parseToken_length _ _ _ ht
            simp only [List.length_cons] at h3 hlen
            exact argLoopF_irrel _ _ _ _ (by omega) (by omega)
        · have h3 := parseRedirect_length _ _ _ hr
          simp only [List.length_cons] at h3 hlen
          exact argLoopF_irrel _ _ _ _ (by omega) (by omega)

theorem argLoopF_length (fuel : Nat) :
    ∀ (l : List Char) (cmd res : Command) (r : List Char),
      argLoopF fuel l cmd = .ok (res, r) → r.length ≤ l.length := by
  induction fuel with
  | zero =>
    intro l cmd res r h
    rw [argLoopF] at h
    simp only [Except.ok.injEq, Prod.mk.injEq] at h
    rw [← h.2]
  | succ f ih =>
    intro l cmd res r h
    rw [argLoopF] at h
    rcases hw : skipWs l with _ | ⟨c, rest⟩
    · rw [hw] at h
      simp only [Except.ok.injEq, Prod.mk.injEq] at h
      simp [← h.2]
    · rw [hw] at h
      have hlen : (c :: rest).length ≤ l.length := by
        rw [← hw]
        exact skipWs_length l
      dsimp only at h
      split at h
      · simp only [Except.ok.injEq, Prod.mk.injEq] at h
        simp [← h.2]
      · split at h
        · simp only [Except.ok.injEq, Prod.mk.injEq] at h
          rw [← h.2]
          exact hlen
        · rcases hr : parseRedirect (c :: rest) with _ | ⟨rd, r2⟩ <;>
            rw [hr] at h
          · rcases ht : parseToken (c :: rest) with e | ⟨arg, r2⟩ <;>
              rw [ht] at h
            · exact Except.noConfusion h
            · have h1 := parseToken_length _ _ _ ht
              have h3 := ih _ _ _ _ h
              simp only [List.length_cons] at h1 hlen
              omega
          · have h1 := parseRedirect_length _ _ _ hr
            have h3 := ih _ _ _ _ h
            simp only [List.length_cons] at h1 hlen
            omega

theorem argLoop_length (l : List Char) (cmd res : Command) (r : List Char)
    (h : argLoop l cmd = .ok (res, r)) : r.length ≤ l.length :=
  argLoopF_length (l.length + 1) l cmd res r h

theorem parseSimpleCommand_length (l : List Char) (cmd : Command)
    (r : List Char) (h : parseSimpleCommand l = .ok (cmd, r)) :
    r.length < l.length := by
  rcases hw : skipWs l with _ | ⟨c, rest⟩
  · simp only [parseSimpleCommand, hw] at h
    exact Except.noConfusion h
  · simp only [parseSimpleCommand, hw] at h
    rcases ht : parseToken (c :: rest) with e | ⟨name, r2⟩ <;>
      simp only [ht] at h
    · exact Except.noConfusion h
    · have h1 := parseToken_length _ _ _ ht
      have h2 := skipWs_length l
      rw [hw] at h2
      have h3 := argLoop_length _ _ _ _ h
      simp only [List.length_cons] at h1 h2
      omega

theorem pipeLoopF_irrel (fuel : Nat) :
    ∀ (fuel2 : Nat) (l : List Char) (cmd : Command), l.length < fuel →
      l.length < fuel2 → pipeLoopF fuel l cmd = pipeLoopF fuel2 l cmd := by
  induction fuel with
  | zero =>
    intro fuel2 l cmd h1 h2
    omega
  | succ f ih =>
    intro fuel2 l cmd h1 h2
    rcases fuel2 with _ | g
    · omega
    · rcases l with _ | ⟨c, rest⟩
      · rfl
      · rw [pipeLoopF, pipeLoopF]
        by_cases hc : c = '|'
        · rw [if_pos hc, if_pos hc]
          rcases hn : parseSimpleCommand (skipWs rest) with e | ⟨next, r⟩
          · rfl
          · have h3 := parseSimpleCommand_length _ _ _ hn
            have h4 := skipWs_length rest
            simp only [List.length_cons] at h1 h2
            exact ih g r _ (by omega) (by omega)
        · rw [if_neg hc, if_neg hc]

/-- The budget-free unfolding equation of the pipe loop: `pipeLoop` is
exactly the Go loop. -/
theorem pipeLoop_eq (l : List Char) (cmd : Command) :
    pipeLoop l cmd =
      match l with
      | [] => .ok (cmd, [])
      | c :: rest =>
        if c = '|' then
          match parseSimpleCommand (skipWs rest) with
          | .error e => .error e
          | .ok (next, r) => pipeLoop r (cmd.pushPipe next)
        else .ok (cmd, c :: rest) := by
  show pipeLoopF (l.length + 1) l cmd = _
  rcases l with _ | ⟨c, rest⟩
  · rfl
  · rw [pipeLoopF]
    dsimp only
    by_cases hc : c = '|'
    · rw [if_pos hc, if_pos hc]
      rcases hn : parseSimpleCommand (skipWs rest) with e | ⟨next, r⟩
      · rfl
      · have h3 := parseSimpleCommand_length _ _ _ hn
        have h4 := skipWs_length rest
        exact pipeLoopF_irrel (c :: rest).length (r.length + 1) r
          (cmd.pushPipe next)
          (by simp only [List.length_cons]; omega)
          (by omega)
    · rw [if_neg hc, if_neg hc]

theorem plainChar_spec (c : Char) (h : plainChar c = true) :
    isSpaceB c = false ∧ ¬c = '|' ∧ ¬c = '>' ∧ ¬c = '<' ∧ ¬c = '&' ∧
      ¬c = '"' ∧ ¬c = '\'' ∧ ¬c = '\\' := by
  simp only [plainChar, Bool.and_eq_true, Bool.not_eq_true',
    decide_eq_false_iff_not] at h
  tauto

theorem isBreakB_spec (c : Char) (h : isBreakB c = true) :
    ¬c = '"' ∧ ¬c = '\'' ∧ ¬c = '\\' := by
  refine ⟨?_, ?_, ?_⟩ <;> rintro rfl <;> simp [isBreakB, isSpaceB] at h

/-- The scanner, outside quotes, stops immediately on a terminator (or on
exhausted input) and returns the accumulated token. -/
theorem tokLoop_break (r : List Char) (hr : breakOrEmpty r) (qc : Char)
    (acc : List Char) : tokLoop r false qc acc = .ok (acc, r) := by
  rcases hr with rfl | ⟨c, tl, rfl, hc⟩
  · rfl
  · obtain ⟨h1, h2, h3⟩ := isBreakB_spec c hc
    rw [tokLoop_cons]
    rw [if_neg (by simp [h1, h2])]
    rw [if_neg (by simp)]
    rw [if_neg h3]
    rw [if_pos (by simp [hc])]

/-- The scanner, outside quotes, copies a run of plain characters into the
accumulator and then stops at the terminator. -/
theorem tokLoop_plain (t : List Char) (hp : ∀ c ∈ t, plainChar c = true) :
    ∀ (r : List Char), breakOrEmpty r → ∀ (qc : Char) (acc : List Char),
      tokLoop (t ++ r) false qc acc = .ok (acc ++ t, r) := by
  induction t with
  | nil =>
    intro r hr qc acc
    simpa using tokLoop_break r hr qc acc
  | cons d t2 ih =>
    intro r hr qc acc
    obtain ⟨hsp, hbar, hgt, hlt, hamp, hdq, hsq, hbs⟩ :=
      plainChar_spec d (hp d (by simp))
    rw [List.cons_append, tokLoop_cons]
    rw [if_neg (by simp [hdq, hsq])]
    rw [if_neg (by simp)]
    rw [if_neg hbs]
    rw [if_neg (by simp [isBreakB, hsp, hbar, hgt, hlt, hamp])]
    rw [ih (fun c hc => hp c (by simp [hc])) r hr qc (acc ++ [d])]
    simp

/-- `skipWs` does not move past a non-whitespace head character. -/
theorem skipWs_noSpace (c : Char) (l : List Char) (h : isSpaceB c = false) :
    skipWs (c :: l) = c :: l := by
  rw [skipWs]
  simp [h]

/-- `skipWs` drops a leading space. -/
theorem skipWs_cons_space (c : Char) (l : List Char) (h : isSpaceB c = true) :
    skipWs (c :: l) = skipWs l := by
  rw [skipWs]
  simp [h]

/-- `parseToken` on a plain token followed by a terminator returns the
token verbatim. -/
theorem parseToken_plain (t r : List Char) (hp : plainTok t = true)
    (hr : breakOrEmpty r) : parseToken (t ++ r) = .ok (String.mk t, r) := by
  simp only [plainTok, Bool.and_eq_true, List.all_eq_true] at hp
  rcases t with _ | ⟨c, t2⟩
  · simp at hp
  · have hpl := hp.2
    have hc := plainChar_spec c (hpl c (by simp))
    have hskip : skipWs ((c :: t2) ++ r) = c :: (t2 ++ r) := by
      rw [List.cons_append]
      exact skipWs_noSpace c (t2 ++ r) hc.1
    simp only [parseToken, hskip]
    rw [show c :: (t2 ++ r) = (c :: t2) ++ r from (List.cons_append c t2 r).symm]
    rw [tokLoop_plain (c :: t2) hpl r hr (Char.ofNat 0) []]
    simp

/-- `parseRedirect` declines a position whose head is a plain character
(as long as a head `2` is not followed by `>`). -/
theorem parseRedirect_plain (c : Char) (l2 : List Char)
    (hc : plainChar c = true)
    (h2 : ∀ d tl, l2 = d :: tl → ¬d = '>') :
    parseRedirect (c :: l2) = none := by
  obtain ⟨-, -, hgt, hlt, hamp, -, -, -⟩ := plainChar_spec c hc
  rw [parseRedirect.eq_def]
  dsimp only
  rw [if_neg hgt, if_neg hlt]
  by_cases h2c : c = '2'
  · rw [if_pos h2c]
    rcases l2 with _ | ⟨d, tl⟩
    · rfl
    · dsimp only
      rw [if_neg (h2 d tl rfl)]
  · rw [if_neg h2c, if_neg hamp]

theorem appendArgs_nil (cmd : Command) : cmd.appendArgs [] = cmd := by
  rcases cmd with ⟨n, a, p, r, b⟩
  simp [Command.appendArgs]

theorem pushArg_appendArgs (cmd : Command) (x : String) (xs : List String) :
    (cmd.pushArg x).appendArgs xs = cmd.appendArgs (x :: xs) := by
  rcases cmd with ⟨n, a, p, r, b⟩
  simp [Command.appendArgs, Command.pushArg]

theorem appendPipes_nil (cmd : Command) : cmd.appendPipes [] = cmd := by
  rcases cmd with ⟨n, a, p, r, b⟩
  simp [Command.appendPipes]

theorem pushPipe_appendPipes (cmd : Command) (x : Command) (xs : List Command) :
    (cmd.pushPipe x).appendPipes xs = cmd.appendPipes (x :: xs) := by
  rcases cmd with ⟨n, a, p, r, b⟩
  simp [Command.appendPipes, Command.pushPipe]

theorem contOk_break (pr : List Char) (h : contOk pr) : breakOrEmpty pr := by
  rcases h with rfl | rfl | ⟨tl, rfl⟩ | ⟨tl, rfl⟩
  · exact Or.inl rfl
  · exact Or.inr ⟨'&', [], rfl, by decide⟩
  · exact Or.inr ⟨' ', tl, rfl, by decide⟩
  · exact Or.inr ⟨'|', tl, rfl, by decide⟩

theorem contOk_notGt (pr : List Char) (h : contOk pr) :
    ∀ d tl, pr = d :: tl → ¬d = '>' := by
  intro d tl heq
  rcases h with rfl | rfl | ⟨tl2, rfl⟩ | ⟨tl2, rfl⟩
  · exact List.noConfusion heq
  all_goals
    rw [List.cons.injEq] at heq
    rcases heq with ⟨heq1, -⟩
    rw [← heq1]
    decide

/-- The tail after an argument run is either the continuation itself or
starts with the following argument separator space. -/
theorem renderArgs_contOk (as : List (List Char)) (pr : List Char)
    (h : contOk pr) : contOk (renderArgs as ++ pr) := by
  rcases as with _ | ⟨a, as2⟩
  · simpa [renderArgs] using h
  · exact Or.inr (Or.inr (Or.inl ⟨a ++ renderArgs as2 ++ pr, by
      simp [renderArgs]⟩))

/-- Running the argument loop over rendered arguments appends them to the
command and leaves the continuation to be handled. -/
theorem argLoop_renderArgs (as : List (List Char))
    (hw : ∀ a ∈ as, plainTok a = true) :
    ∀ (pr : List Char), contOk pr → ∀ (cmd : Command),
      argLoop (renderArgs as ++ pr) cmd =
        argLoop pr (cmd.appendArgs (as.map String.mk)) := by
  induction as with
  | nil =>
    intro pr hpr cmd
    simp [renderArgs, appendArgs_nil]
  | cons a as2 ih =>
    intro pr hpr cmd
    rcases a with _ | ⟨c, a2⟩
    · have hnil := hw [] (by simp)
      simp [plainTok] at hnil
    · have hpa : ∀ x ∈ c :: a2, plainChar x = true := by
        have hx := hw (c :: a2) (by simp)
        simp only [plainTok, Bool.and_eq_true, List.all_eq_true] at hx
        exact hx.2
      have hcpl := hpa c (by simp)
      obtain ⟨hsp, hbar, -, -, hamp, -, -, -⟩ := plainChar_spec c hcpl
      have hskip : skipWs (renderArgs ((c :: a2) :: as2) ++ pr) =
          c :: (a2 ++ (renderArgs as2 ++ pr)) := by
        rw [show renderArgs ((c :: a2) :: as2) ++ pr =
          ' ' :: ((c :: a2) ++ (renderArgs as2 ++ pr)) from by
            simp [renderArgs]]
        rw [skipWs_cons_space ' ' _ (by decide), List.cons_append]
        exact skipWs_noSpace c _ hsp
      rw [argLoop_eq, hskip]
      dsimp only
      rw [if_neg (by simp [hamp])]
      rw [if_neg hbar]
      have hnext : ∀ d tl, a2 ++ (renderArgs as2 ++ pr) = d :: tl →
          ¬d = '>' := by
        intro d tl heq
        rcases a2 with _ | ⟨e, a3⟩
        · simp only [List.nil_append] at heq
          exact contOk_notGt _ (renderArgs_contOk as2 pr hpr) d tl heq
        · rw [List.cons_append, List.cons.injEq] at heq
          rcases heq with ⟨heq1, -⟩
          rw [← heq1]
          exact (plainChar_spec e (hpa e (by simp))).2.2.1
      rw [parseRedirect_plain c _ hcpl hnext]
      have htok : parseToken (c :: (a2 ++ (renderArgs as2 ++ pr))) =
          .ok (String.mk (c :: a2), renderArgs as2 ++ pr) := by
        rw [show c :: (a2 ++ (renderArgs as2 ++ pr)) =
          (c :: a2) ++ (renderArgs as2 ++ pr) from by simp]
        exact parseToken_plain (c :: a2) _
          (by
            simp only [plainTok, Bool.and_eq_true, List.all_eq_true]
            exact ⟨by simp, hpa⟩)
          (contOk_break _ (renderArgs_contOk as2 pr hpr))
      rw [htok]
      show argLoop (renderArgs as2 ++ pr) (cmd.pushArg (String.mk (c :: a2))) = _
      rw [ih (fun x hx => hw x (by simp [hx])) pr hpr
        (cmd.pushArg (String.mk (c :: a2)))]
      rw [pushArg_appendArgs]
      simp

theorem argLoop_nil (cmd : Command) : argLoop [] cmd = .ok (cmd, []) := rfl

theorem argLoop_amp (cmd : Command) :
    argLoop ['&'] cmd = .ok (cmd.setBackground true, []) := rfl

theorem argLoop_space_amp (cmd : Command) :
    argLoop [' ', '&'] cmd = .ok (cmd.setBackground true, []) := rfl

theorem argLoop_pipe (tl : List Char) (cmd : Command) :
    argLoop (' ' :: '|' :: tl) cmd = .ok (cmd, '|' :: tl) := rfl

theorem tailRender_contOk (ss : List (List Char × List (List Char))) :
    contOk (tailRender ss) := by
  rcases ss with _ | ⟨st, ss2⟩
  · exact Or.inl rfl
  · exact Or.inr (Or.inr (Or.inl ⟨_, rfl⟩))

/-- Resuming the argument loop on the rendered trailing stages stops at
the pipe (or at the end of the line). -/
theorem argLoop_tail (ss : List (List Char × List (List Char)))
    (cmd : Command) : argLoop (tailRender ss) cmd = .ok (cmd, afterTail ss) := by
  rcases ss with _ | ⟨st, ss2⟩
  · exact argLoop_nil cmd
  · exact argLoop_pipe _ cmd

/-- Parsing a rendered stage consumes exactly the stage and produces its
Command, handing the continuation to the argument loop. -/
theorem parseSimpleCommand_render (nm : List Char) (as : List (List Char))
    (pr : List Char) (hnm : plainTok nm = true)
    (has : ∀ a ∈ as, plainTok a = true) (hpr : contOk pr) :
    parseSimpleCommand ((nm ++ renderArgs as) ++ pr) =
      argLoop pr (.mk (String.mk nm) (as.map String.mk) [] none false) := by
  have hnm2 := hnm
  simp only [plainTok, Bool.and_eq_true, List.all_eq_true] at hnm2
  rcases nm with _ | ⟨c, n2⟩
  · simp at hnm2
  · have hcpl := hnm2.2 c (by simp)
    have hsp := (plainChar_spec c hcpl).1
    have hskip : skipWs (((c :: n2) ++ renderArgs as) ++ pr) =
        c :: (n2 ++ (renderArgs as ++ pr)) := by
      rw [show ((c :: n2) ++ renderArgs as) ++ pr =
        c :: (n2 ++ (renderArgs as ++ pr)) from by simp]
      exact skipWs_noSpace c _ hsp
    simp only [parseSimpleCommand, hskip]
    have htok : parseToken (c :: (n2 ++ (renderArgs as ++ pr))) =
        .ok (String.mk (c :: n2), renderArgs as ++ pr) := by
      rw [show c :: (n2 ++ (renderArgs as ++ pr)) =
        (c :: n2) ++ (renderArgs as ++ pr) from by simp]
      exact parseToken_plain (c :: n2) _ hnm
        (contOk_break _ (renderArgs_contOk as pr hpr))
    rw [htok]
    show argLoop (renderArgs as ++ pr) (.mk (String.mk (c :: n2)) [] [] none false) = _
    rw [argLoop_renderArgs as has pr hpr]
    rw [show (Command.mk (String.mk (c :: n2)) [] [] none false).appendArgs
      (as.map String.mk) =
        .mk (String.mk (c :: n2)) (as.map String.mk) [] none false from by
      simp [Command.appendArgs]]

/-- The pipe loop consumes every rendered trailing stage and appends the
stage Commands, in order, to the head command. -/
theorem pipeLoop_after (ss : List (List Char × List (List Char)))
    (hwf : ∀ st ∈ ss, wfStage st) :
    ∀ cmd, pipeLoop (afterTail ss) cmd =
      .ok (cmd.appendPipes (ss.map mkStage), []) := by
  induction ss with
  | nil =>
    intro cmd
    rw [show pipeLoop (afterTail []) cmd = .ok (cmd, []) from rfl]
    rw [show (List.map mkStage []) = [] from rfl, appendPipes_nil]
  | cons st ss2 ih =>
    intro cmd
    obtain ⟨hn, has⟩ := hwf st (by simp)
    rw [show afterTail (st :: ss2) =
      '|' :: ' ' :: (stageRender st ++ tailRender ss2) from rfl]
    rw [pipeLoop_eq]
    dsimp only
    rw [if_pos rfl]
    have hskip : skipWs (' ' :: (stageRender st ++ tailRender ss2)) =
        stageRender st ++ tailRender ss2 := by
      rw [skipWs_cons_space ' ' _ (by decide)]
      have hnm2 := hn
      simp only [plainTok, Bool.and_eq_true, List.all_eq_true] at hnm2
      rcases hst : st.1 with _ | ⟨c, n2⟩
      · rw [hst] at hnm2
        simp at hnm2
      · rw [show stageRender st ++ tailRender ss2 =
          c :: (n2 ++ renderArgs st.2 ++ tailRender ss2) from by
            simp [stageRender, hst]]
        exact skipWs_noSpace c _
          ((plainChar_spec c (by rw [hst] at hnm2; exact hnm2.2 c (by simp))).1)
    rw [hskip]
    rw [show stageRender st ++ tailRender ss2 =
      (st.1 ++ renderArgs st.2) ++ tailRender ss2 from by simp [stageRender]]
    rw [parseSimpleCommand_render st.1 st.2 (tailRender ss2) hn has
      (tailRender_contOk ss2)]
    rw [argLoop_tail ss2]
    show pipeLoop (afterTail ss2) (cmd.pushPipe (mkStage st)) = _
    rw [ih (fun x hx => hwf x (by simp [hx])) (cmd.pushPipe (mkStage st))]
    rw [pushPipe_appendPipes]
    rw [show (List.map mkStage (st :: ss2)) = mkStage st :: ss2.map mkStage
      from rfl]

/-- Parsing a rendered well-formed pipeline yields the head command with
one pipeline successor per trailing stage, in order. -/
theorem parseCommand_render (s0 : List Char × List (List Char))
    (ss : List (List Char × List (List Char))) (h0 : wfStage s0)
    (hss : ∀ st ∈ ss, wfStage st) :
    parseCommand (stageRender s0 ++ tailRender ss) =
      .ok (.mk (String.mk s0.1) (s0.2.map String.mk) (ss.map mkStage)
        none false, []) := by
  rw [parseCommand]
  rw [show stageRender s0 ++ tailRender ss =
    (s0.1 ++ renderArgs s0.2) ++ tailRender ss from by simp [stageRender]]
  rw [parseSimpleCommand_render s0.1 s0.2 (tailRender ss) h0.1 h0.2
    (tailRender_contOk ss)]
  rw [argLoop_tail ss]
  show pipeLoop (afterTail ss)
    (.mk (String.mk s0.1) (s0.2.map String.mk) [] none false) = _
  rw [pipeLoop_after ss hss]
  rw [show (Command.mk (String.mk s0.1) (s0.2.map String.mk) [] none
    false).appendPipes (ss.map mkStage) =
      .mk (String.mk s0.1) (s0.2.map String.mk) (ss.map mkStage) none false
    from by simp [Command.appendPipes]]

/-! ## Quoted tokens -/

/-- Inside a quoted run, every character other than the closing quote and
the backslash is copied verbatim; the closing quote flips the scanner back
to unquoted mode. -/
theorem tokLoop_quoted_run (q : Char) :
    ∀ (s : List Char), (∀ c ∈ s, ¬c = q ∧ ¬c = '\\') →
      ∀ (r acc : List Char),
        tokLoop (s ++ q :: r) true q acc =
          tokLoop r false (Char.ofNat 0) (acc ++ s) := by
  intro s
  induction s with
  | nil =>
    intro hs r acc
    rw [List.nil_append, tokLoop_cons]
    rw [if_neg (by simp)]
    rw [if_pos (by simp)]
    rw [List.append_nil]
  | cons c s2 ih =>
    intro hs r acc
    obtain ⟨hq, hbs⟩ := hs c (by simp)
    rw [List.cons_append, tokLoop_cons]
    rw [if_neg (by simp)]
    rw [if_neg (by simp [hq])]
    rw [if_neg hbs]
    rw [if_neg (by simp)]
    rw [ih (fun x hx => hs x (by simp [hx])) r (acc ++ [c])]
    simp

/-- A whole quoted token: the quotes are elided and the content, special
characters included, becomes the token text. -/
theorem parseToken_quoted (q : Char) (s r : List Char)
    (hq : q = '"' ∨ q = '\'') (hs : s ≠ [])
    (hsc : ∀ c ∈ s, ¬c = q ∧ ¬c = '\\') (hr : breakOrEmpty r) :
    parseToken (q :: (s ++ q :: r)) = .ok (String.mk s, r) := by
  have hqs : isSpaceB q = false := by
    rcases hq with rfl | rfl <;> decide
  simp only [parseToken, skipWs_noSpace q _ hqs]
  rw [tokLoop_cons]
  rw [if_pos (by rcases hq with rfl | rfl <;> simp)]
  rw [tokLoop_quoted_run q s hsc r []]
  rw [tokLoop_break r hr]
  rw [List.nil_append]
  simp [hs]

/-! ## Where the background flag can come from

These invariants locate the only assignment of `Background = true` in the
parser: the lone `&` at the very end of the line. -/

theorem setBackground_bg (cmd : Command) (b : Bool) :
    (cmd.setBackground b).background = b := by
  rcases cmd with ⟨n, a, p, r, bg⟩
  rfl

theorem setRedirect_bg (cmd : Command) (x : Option Redirect) :
    (cmd.setRedirect x).background = cmd.background := by
  rcases cmd with ⟨n, a, p, r, bg⟩
  rfl

theorem pushArg_bg (cmd : Command) (x : String) :
    (cmd.pushArg x).background = cmd.background := by
  rcases cmd with ⟨n, a, p, r, bg⟩
  rfl

theorem pushPipe_bg (cmd : Command) (x : Command) :
    (cmd.pushPipe x).background = cmd.background := by
  rcases cmd with ⟨n, a, p, r, bg⟩
  rfl

theorem getLast?_append_right (l1 l2 : List Char) (h : l2 ≠ []) :
    (l1 ++ l2).getLast? = l2.getLast? := by
  rcases List.eq_nil_or_concat l2 with rfl | ⟨ys, a, rfl⟩
  · exact absurd rfl h
  · simp only [List.concat_eq_append, ← List.append_assoc,
      List.getLast?_concat]

theorem getLast?_of_suffix (l r : List Char) (h : r.IsSuffix l) (hne : r ≠ []) :
    l.getLast? = r.getLast? := by
  obtain ⟨pre, rfl⟩ := h
  exact getLast?_append_right pre r hne

theorem tokLoop_suffix (l : List Char) (q : Bool) (qc : Char)
    (acc t r : List Char) (h : tokLoop l q qc acc = .ok (t, r)) :
    r.IsSuffix l := by
  induction l, q, qc, acc using tokLoop.induct generalizing t r with
  | case1 x acc =>
    simp [tokLoop] at h
  | case2 quoted x acc hq =>
    have h0 : tokLoop [] quoted x acc = .ok (acc, []) := by
      rw [tokLoop]
      simp [hq]
    rw [h0] at h
    simp only [Except.ok.injEq, Prod.mk.injEq] at h
    obtain ⟨-, h2⟩ := h
    subst h2
    exact List.suffix_rfl
  | case3 c rest quoted qc acc h1 ih =>
    rw [tokLoop_cons, if_pos h1] at h
    exact (ih _ _ h).trans (List.suffix_cons c rest)
  | case4 c rest quoted qc acc h1 h2 ih =>
    rw [tokLoop_cons, if_neg h1, if_pos h2] at h
    exact (ih _ _ h).trans (List.suffix_cons c rest)
  | case5 quoted qc acc n rest2 h1 h2 ih =>
    rw [tokLoop_cons, if_neg h1, if_neg h2, if_pos rfl] at h
    exact ((ih _ _ h).trans (List.suffix_cons n rest2)).trans
      (List.suffix_cons '\\' (n :: rest2))
  | case6 qc acc h1 h2 =>
    rw [tokLoop_cons, if_neg h1, if_neg h2, if_pos rfl] at h
    simp at h
  | case7 quoted qc acc hq h1 h2 =>
    rw [tokLoop_cons, if_neg h1, if_neg h2, if_pos rfl] at h
    simp only [hq, if_false, Bool.false_eq_true, ite_false,
      Except.ok.injEq, Prod.mk.injEq] at h
    obtain ⟨-, h2⟩ := h
    subst h2
    exact List.nil_suffix
  | case8 c rest quoted qc acc h1 h2 h3 h4 =>
    rw [tokLoop_cons, if_neg h1, if_neg h2, if_neg h3, if_pos h4] at h
    simp only [Except.ok.injEq, Prod.mk.injEq] at h
    rw [← h.2]
  | case9 c rest quoted qc acc h1 h2 h3 h4 ih =>
    rw [tokLoop_cons, if_neg h1, if_neg h2, if_neg h3, if_neg h4] at h
    exact (ih _ _ h).trans (List.suffix_cons c rest)

theorem parseToken_suffix (l : List Char) (s : String) (r : List Char)
    (h : parseToken l = .ok (s, r)) : r.IsSuffix l := by
  rcases hw : skipWs l with _ | ⟨c, rest⟩
  · simp only [parseToken, hw] at h
    exact Except.noConfusion h
  · simp only [parseToken, hw] at h
    rcases ht : tokLoop (c :: rest) false (Char.ofNat 0) [] with e | ⟨acc, r2⟩ <;>
      simp only [ht] at h
    · exact Except.noConfusion h
    · by_cases ha : acc.isEmpty
      · simp [ha] at h
      · simp only [ha, if_false, Bool.false_eq_true, ite_false,
          Except.ok.injEq, Prod.mk.injEq] at h
        rcases h with ⟨-, rfl⟩
        exact (tokLoop_suffix _ _ _ _ _ _ ht).trans (hw ▸ skipWs_suffix l)

theorem targLoop_suffix (l : List Char) : (targLoop l).2.IsSuffix l := by
  induction l with
  | nil => simp [targLoop]
  | cons c rest ih =>
    rw [targLoop]
    split
    · exact List.suffix_rfl
    · rcases htr : targLoop rest with ⟨t1, r1⟩
      rw [htr] at ih
      exact ih.trans (List.suffix_cons c rest)

theorem parseRedirectTarget_suffix (l : List Char) :
    (parseRedirectTarget l).2.IsSuffix l := by
  rw [parseRedirectTarget]
  exact (targLoop_suffix (skipWs l)).trans (skipWs_suffix l)

theorem parseRedirect_suffix (l : List Char) (rd : Redirect) (r : List Char)
    (h : parseRedirect l = some (rd, r)) : r.IsSuffix l := by
  rcases l with _ | ⟨c, rest⟩
  · exact Option.noConfusion h
  · rw [parseRedirect.eq_def] at h
    dsimp only at h
    by_cases hgt : c = '>'
    · rw [if_pos hgt] at h
      rcases rest with _ | ⟨d, rest2⟩
      · dsimp only at h
        simp only [Option.some.injEq, Prod.mk.injEq] at h
        rcases h with ⟨-, rfl⟩
        simp [parseRedirectTarget, targLoop, skipWs]
      · dsimp only at h
        by_cases hd : d = '>'
        · rw [if_pos hd] at h
          simp only [Option.some.injEq, Prod.mk.injEq] at h
          rcases h with ⟨-, rfl⟩
          exact ((parseRedirectTarget_suffix rest2).trans
            (List.suffix_cons d rest2)).trans (List.suffix_cons c (d :: rest2))
        · rw [if_neg hd] at h
          simp only [Option.some.injEq, Prod.mk.injEq] at h
          rcases h with ⟨-, rfl⟩
          exact (parseRedirectTarget_suffix (d :: rest2)).trans
            (List.suffix_cons c (d :: rest2))
    · rw [if_neg hgt] at h
      by_cases hlt : c = '<'
      · rw [if_pos hlt] at h
        simp only [Option.some.injEq, Prod.mk.injEq] at h
        rcases h with ⟨-, rfl⟩
        exact (parseRedirectTarget_suffix rest).trans (List.suffix_cons c rest)
      · rw [if_neg hlt] at h
        by_cases h2 : c = '2'
        · rw [if_pos h2] at h
          rcases rest with _ | ⟨d, rest2⟩
          · exact Option.noConfusion h
          · dsimp only at h
            by_cases hd : d = '>'
            · rw [if_pos hd] at h
              simp only [Option.some.injEq, Prod.mk.injEq] at h
              rcases h with ⟨-, rfl⟩
              exact ((parseRedirectTarget_suffix rest2).trans
                (List.suffix_cons d rest2)).trans
                (List.suffix_cons c (d :: rest2))
            · rw [if_neg hd] at h
              exact Option.noConfusion h
        · rw [if_neg h2] at h
          by_cases hamp : c = '&'
          · rw [if_pos hamp] at h
            rcases rest with _ | ⟨d, rest2⟩
            · exact Option.noConfusion h
            · dsimp only at h
              by_cases hd : d = '>'
              · rw [if_pos hd] at h
                simp only [Option.some.injEq, Prod.mk.injEq] at h
                rcases h with ⟨-, rfl⟩
                exact ((parseRedirectTarget_suffix rest2).trans
                  (List.suffix_cons d rest2)).trans
                  (List.suffix_cons c (d :: rest2))
              · rw [if_neg hd] at h
                exact Option.noConfusion h
          · rw [if_neg hamp] at h
            exact Option.noConfusion h

/-- The argument loop sets `Background` only when the remaining input is a
lone final ampersand; in every other case the flag is inherited, and the
unconsumed remainder is always a suffix of the loop's input. -/
theorem argLoopF_bg (fuel : Nat) :
    ∀ (l : List Char) (cmd res : Command) (r : List Char),
      argLoopF fuel l cmd = .ok (res, r) →
        r.IsSuffix l ∧ (res.background = cmd.background ∨
          (r = [] ∧ l.getLast? = some '&')) := by
  induction fuel with
  | zero =>
    intro l cmd res r h
    rw [argLoopF] at h
    simp only [Except.ok.injEq, Prod.mk.injEq] at h
    obtain ⟨h1, h2⟩ := h
    subst h2
    exact ⟨List.suffix_rfl, Or.inl (by rw [h1])⟩
  | succ f ih =>
    intro l cmd res r h
    rw [argLoopF] at h
    rcases hw : skipWs l with _ | ⟨c, rest⟩
    · rw [hw] at h
      simp only [Except.ok.injEq, Prod.mk.injEq] at h
      obtain ⟨h1, h2⟩ := h
      subst h2
      exact ⟨List.nil_suffix, Or.inl (by rw [← h1])⟩
    · rw [hw] at h
      dsimp only at h
      have hsuf : (c :: rest).IsSuffix l := hw ▸ skipWs_suffix l
      split at h
      · rename_i hb
        simp only [Bool.and_eq_true, decide_eq_true_eq,
          List.isEmpty_iff] at hb
        obtain ⟨hc, hrest⟩ := hb
        simp only [Except.ok.injEq, Prod.mk.injEq] at h
        obtain ⟨h1, h2⟩ := h
        subst h2
        refine ⟨List.nil_suffix, Or.inr ⟨rfl, ?_⟩⟩
        subst hc
        subst hrest
        obtain ⟨pre, hpre⟩ := hsuf
        rw [← hpre, List.getLast?_concat]
      · split at h
        · simp only [Except.ok.injEq, Prod.mk.injEq] at h
          obtain ⟨h1, h2⟩ := h
          subst h2
          exact ⟨hsuf, Or.inl (by rw [← h1])⟩
        · rcases hr : parseRedirect (c :: rest) with _ | ⟨rd, r2⟩ <;>
            rw [hr] at h
          · rcases ht : parseToken (c :: rest) with e | ⟨arg, r2⟩ <;>
              rw [ht] at h
            · exact Except.noConfusion h
            · obtain ⟨i1, i2⟩ := ih _ _ _ _ h
              have hsub : r2.IsSuffix l :=
                (parseToken_suffix _ _ _ ht).trans hsuf
              refine ⟨i1.trans hsub, ?_⟩
              rcases i2 with i2 | ⟨i2a, i2b⟩
              · rw [i2, pushArg_bg]
                exact Or.inl rfl
              · refine Or.inr ⟨i2a, ?_⟩
                have hr2ne : r2 ≠ [] := by
                  intro hcon
                  rw [hcon] at i2b
                  simp at i2b
                rw [getLast?_of_suffix l r2 hsub hr2ne]
                exact i2b
          · obtain ⟨i1, i2⟩ := ih _ _ _ _ h
            have hsub : r2.IsSuffix l :=
              (parseRedirect_suffix _ _ _ hr).trans hsuf
            refine ⟨i1.trans hsub, ?_⟩
            rcases i2 with i2 | ⟨i2a, i2b⟩
            · rw [i2, setRedirect_bg]
              exact Or.inl rfl
            · refine Or.inr ⟨i2a, ?_⟩
              have hr2ne : r2 ≠ [] := by
                intro hcon
                rw [hcon] at i2b
                simp at i2b
              rw [getLast?_of_suffix l r2 hsub hr2ne]
              exact i2b

/-- A successfully parsed stage carries `background = true` only when the
stage consumed the whole rest of the line and that line ends in `&`. -/
theorem parseSimpleCommand_bg (l : List Char) (cmd : Command)
    (r : List Char) (h : parseSimpleCommand l = .ok (cmd, r)) :
    cmd.background = false ∨ (r = [] ∧ l.getLast? = some '&') := by
  rcases hw : skipWs l with _ | ⟨c, rest⟩
  · simp only [parseSimpleCommand, hw] at h
    exact Except.noConfusion h
  · simp only [parseSimpleCommand, hw] at h
    rcases ht : parseToken (c :: rest) with e | ⟨name, r2⟩ <;>
      simp only [ht] at h
    · exact Except.noConfusion h
    · obtain ⟨i1, i2⟩ := argLoopF_bg _ _ _ _ _ h
      rcases i2 with i2 | ⟨i2a, i2b⟩
      · exact Or.inl i2
      · refine Or.inr ⟨i2a, ?_⟩
        have hsub : r2.IsSuffix l :=
          (parseToken_suffix _ _ _ ht).trans (hw ▸ skipWs_suffix l)
        have hr2ne : r2 ≠ [] := by
          intro hcon
          rw [hcon] at i2b
          simp at i2b
        rw [getLast?_of_suffix l r2 hsub hr2ne]
        exact i2b

/-- The pipe loop never touches the head command's background flag. -/
theorem pipeLoopF_bg (fuel : Nat) :
    ∀ (l : List Char) (cmd res : Command) (r : List Char),
      pipeLoopF fuel l cmd = .ok (res, r) →
        res.background = cmd.background := by
  induction fuel with
  | zero =>
    intro l cmd res r h
    rw [pipeLoopF] at h
    simp only [Except.ok.injEq, Prod.mk.injEq] at h
    rw [← h.1]
  | succ f ih =>
    intro l cmd res r h
    rcases l with _ | ⟨c, rest⟩
    · rw [pipeLoopF] at h
      simp only [Except.ok.injEq, Prod.mk.injEq] at h
      rw [← h.1]
    · rw [pipeLoopF] at h
      split at h
      · rcases hn : parseSimpleCommand (skipWs rest) with e | ⟨next, r2⟩ <;>
          rw [hn] at h
        · exact Except.noConfusion h
        · rw [ih _ _ _ _ h, pushPipe_bg]
      · simp only [Except.ok.injEq, Prod.mk.injEq] at h
        rw [← h.1]

/-- The returned head command of a successful parse has
`background = true` only when the input line's final character is the
ampersand. -/
theorem Parse_background (s : String) (c : Command)
    (h : Parse s = .ok c) (hb : c.background = true) :
    s.data.getLast? = some '&' := by
  rw [Parse] at h
  by_cases hs : s = ""
  · rw [if_pos hs] at h
    exact Except.noConfusion h
  · rw [if_neg hs] at h
    rcases hp : parseCommand s.data with e | ⟨c0, r0⟩ <;> rw [hp] at h
    · exact Except.noConfusion h
    · simp only [Except.ok.injEq] at h
      subst h
      rw [parseCommand] at hp
      rcases hsc : parseSimpleCommand s.data with e | ⟨c1, r1⟩ <;>
        rw [hsc] at hp
      · exact Except.noConfusion hp
      · have hpb := pipeLoopF_bg _ _ _ _ _ hp
        rw [hb] at hpb
        rcases parseSimpleCommand_bg _ _ _ hsc with h1 | ⟨-, h2⟩
        · rw [h1] at hpb
          exact Bool.noConfusion hpb
        · exact h2

theorem pipeBuild_no_start (os : OS) :
    ∀ (cs : List Command), ∀ e ∈ (pipeBuild os cs).1, isStartE e = false := by
  intro cs
  induction cs with
  | nil =>
    intro e he
    simp [pipeBuild] at he
  | cons c cs2 ih =>
    intro e he
    by_cases hb : IsBuiltin c.name = true
    · rw [pipeBuild, if_pos hb] at he
      simp at he
    · rcases hr : os.resolve c.name with _ | path
      · rw [pipeBuild, if_neg hb, hr] at he
        simp at he
        subst he
        rfl
      · rw [pipeBuild, if_neg hb, hr] at he
        dsimp only at he
        rcases List.mem_cons.mp he with rfl | he2
        · rfl
        · exact ih e he2

theorem pipeBuild_no_wait (os : OS) :
    ∀ (cs : List Command), ∀ e ∈ (pipeBuild os cs).1, isWaitE e = false := by
  intro cs
  induction cs with
  | nil =>
    intro e he
    simp [pipeBuild] at he
  | cons c cs2 ih =>
    intro e he
    by_cases hb : IsBuiltin c.name = true
    · rw [pipeBuild, if_pos hb] at he
      simp at he
    · rcases hr : os.resolve c.name with _ | path
      · rw [pipeBuild, if_neg hb, hr] at he
        simp at he
        subst he
        rfl
      · rw [pipeBuild, if_neg hb, hr] at he
        dsimp only at he
        rcases List.mem_cons.mp he with rfl | he2
        · rfl
        · exact ih e he2

theorem pipeStart_no_wait (os : OS) :
    ∀ (cs : List (String × List String)), ∀ e ∈ (pipeStart os cs).1,
      isWaitE e = false := by
  intro cs
  induction cs with
  | nil =>
    intro e he
    simp [pipeStart] at he
  | cons pc cs2 ih =>
    intro e he
    rcases pc with ⟨path, args⟩
    rcases hs : os.startErr path args with _ | msg
    · rw [pipeStart, hs] at he
      dsimp only at he
      rcases List.mem_cons.mp he with rfl | he2
      · rfl
      · exact ih e he2
    · rw [pipeStart, hs] at he
      simp at he
      subst he
      rfl

theorem pipeBuild_ok_length (os : OS) :
    ∀ (cs : List Command) (cmds : List (String × List String)),
      (pipeBuild os cs).2 = .ok cmds → cmds.length = cs.length := by
  intro cs
  induction cs with
  | nil =>
    intro cmds h
    simp only [pipeBuild, Except.ok.injEq] at h
    subst h
    rfl
  | cons c cs2 ih =>
    intro cmds h
    rw [pipeBuild] at h
    by_cases hb : IsBuiltin c.name = true
    · rw [if_pos hb] at h
      exact Except.noConfusion h
    · rw [if_neg hb] at h
      rcases hr : os.resolve c.name with _ | path <;> rw [hr] at h
      · exact Except.noConfusion h
      · dsimp only at h
        rcases h2 : (pipeBuild os cs2).2 with e | rest <;> rw [h2] at h
        · exact Except.noConfusion h
        · simp only [Except.map, Except.ok.injEq] at h
          rw [← h]
          simp [ih rest h2]

theorem pipeBuild_builtin_not_ok (os : OS) :
    ∀ (cs : List Command), (∃ c ∈ cs, IsBuiltin c.name = true) →
      ∀ cmds, ¬(pipeBuild os cs).2 = .ok cmds := by
  intro cs
  induction cs with
  | nil =>
    rintro ⟨c, hc, -⟩
    simp at hc
  | cons c cs2 ih =>
    rintro ⟨d, hd, hdb⟩ cmds h
    rw [pipeBuild] at h
    by_cases hb : IsBuiltin c.name = true
    · rw [if_pos hb] at h
      exact Except.noConfusion h
    · rw [if_neg hb] at h
      have hd2 : d ∈ cs2 := by
        rcases List.mem_cons.mp hd with rfl | hd2
        · exact absurd hdb hb
        · exact hd2
      rcases hr : os.resolve c.name with _ | path <;> rw [hr] at h
      · exact Except.noConfusion h
      · dsimp only at h
        rcases h2 : (pipeBuild os cs2).2 with e | rest <;> rw [h2] at h
        · exact Except.noConfusion h
        · exact ih ⟨d, hd2, hdb⟩ rest h2

theorem pipeBuild_builtin_err (os : OS) :
    ∀ (cs : List Command), (∃ c ∈ cs, IsBuiltin c.name = true) →
      (∀ c ∈ cs, IsBuiltin c.name = false → (os.resolve c.name).isSome) →
      (pipeBuild os cs).2 =
        .error "built-in commands in pipelines not yet supported" := by
  intro cs
  induction cs with
  | nil =>
    rintro ⟨c, hc, -⟩
    simp at hc
  | cons c cs2 ih =>
    rintro ⟨d, hd, hdb⟩ hres
    rw [pipeBuild]
    by_cases hb : IsBuiltin c.name = true
    · rw [if_pos hb]
    · rw [if_neg hb]
      have hd2 : d ∈ cs2 := by
        rcases List.mem_cons.mp hd with rfl | hd2
        · exact absurd hdb hb
        · exact hd2
      rcases hr : os.resolve c.name with _ | path
      · have hsome := hres c (by simp) (by simpa using hb)
        rw [hr] at hsome
        simp at hsome
      · dsimp only
        rw [ih ⟨d, hd2, hdb⟩ (fun x hx hxb => hres x (by simp [hx]) hxb)]
        rfl

theorem skipWs_all_space (l : List Char) (h : l.all isSpaceB = true) :
    skipWs l = [] := by
  induction l with
  | nil => rfl
  | cons c rest ih =>
    simp only [List.all_cons, Bool.and_eq_true] at h
    rw [skipWs_cons_space c rest h.1]
    exact ih h.2

/-- Lifting `parseCommand` to `Parse` for a nonempty character list. -/
theorem Parse_render (l : List Char) (c : Command) (r : List Char)
    (hne : ¬l = []) (h : parseCommand l = .ok (c, r)) :
    Parse (String.mk l) = .ok c := by
  rw [Parse]
  rw [if_neg (by
    intro hcon
    exact hne (by
      have := congrArg String.data hcon
      simpa using this))]
  rw [show (String.mk l).data = l from rfl, h]

/-- A missing alias leaves the command unchanged. -/
theorem ExpandAliases_none (cmd : Command) (aliases : List (String × String))
    (h : lookupAlias aliases cmd.name = none) :
    ExpandAliases cmd aliases = cmd := by
  rw [ExpandAliases.eq_def, h]

/-- A present alias with a nonempty expansion replaces the name by the
expansion's first word and prepends the remaining words. -/
theorem ExpandAliases_some (n : String) (a : List String)
    (p : List Command) (r : Option Redirect) (b : Bool)
    (aliases : List (String × String)) (exp w : String) (ws : List String)
    (h : lookupAlias aliases n = some exp) (hf : fieldsGo exp = w :: ws) :
    ExpandAliases (.mk n a p r b) aliases = .mk w (ws ++ a) p r b := by
  rw [ExpandAliases.eq_def]
  rw [show (Command.mk n a p r b).name = n from rfl, h]
  dsimp only
  rw [hf]

theorem IsBuiltin_of_mem (name : String) (h : name ∈ builtinNames) :
    IsBuiltin name = true := by
  simpa [IsBuiltin, List.contains] using List.elem_eq_true_of_mem h

/-- Any name outside the twelve dispatched ones falls into the default
branch of `executeBuiltin`. -/
theorem executeBuiltin_default (os : OS) (cmd : Command)
    (h : ¬cmd.name ∈ dispatchedBuiltins) :
    executeBuiltin os cmd = ([], .error ("unknown built-in command: " ++ cmd.name)) := by
  simp only [dispatchedBuiltins, List.mem_cons, List.not_mem_nil, or_false,
    not_or] at h
  obtain ⟨h1, h2, h3, h4, h5, h6, h7, h8, h9, h10, h11, h12⟩ := h
  rw [executeBuiltin]
  rw [if_neg h1, if_neg h2, if_neg h3, if_neg h4, if_neg h5, if_neg h6,
    if_neg h7, if_neg h8, if_neg h9, if_neg h10, if_neg h11, if_neg h12]

theorem Execute_pipe (os : OS) (sess : Session) (cmd : Command)
    (h : 0 < cmd.pipes.length) :
    Execute os sess (some cmd) = executePipeline os cmd := by
  rw [Execute, if_pos h]

theorem Execute_single (os : OS) (sess : Session) (cmd : Command)
    (h : cmd.pipes = []) :
    Execute os sess (some cmd) = executeSingle os sess cmd := by
  rw [Execute, if_neg (by simp [h])]

/-- `executePipeline` propagates a preparation failure verbatim, with the
preparation trace. -/
theorem executePipeline_build_err (os : OS) (cmd : Command) (e : String)
    (h : (pipeBuild os (cmd :: cmd.pipes)).2 = .error e) :
    executePipeline os cmd = ((pipeBuild os (cmd :: cmd.pipes)).1, .error e) := by
  rw [executePipeline]
  rcases hb : pipeBuild os (cmd :: cmd.pipes) with ⟨ev1, res1⟩
  rw [hb] at h
  dsimp only at h
  subst h
  rfl

/-- On the all-stages-exited path the trace contains exactly one
synchronous wait per stage. -/
theorem executePipeline_ok_waits (os : OS) (cmd : Command) (ev : List Event)
    (h : executePipeline os cmd = (ev, .ok ())) :
    (ev.filter isWaitE).length = (cmd :: cmd.pipes).length := by
  rw [executePipeline] at h
  rcases hb : pipeBuild os (cmd :: cmd.pipes) with ⟨ev1, res1⟩
  rw [hb] at h
  rcases res1 with e | cmds
  · dsimp only at h
    simp only [Prod.mk.injEq] at h
    exact Except.noConfusion h.2
  · dsimp only at h
    rcases hs : pipeStart os cmds with ⟨ev2, res2⟩
    rw [hs] at h
    rcases res2 with e | u
    · dsimp only at h
      simp only [Prod.mk.injEq] at h
      exact Except.noConfusion h.2
    · dsimp only at h
      simp only [Prod.mk.injEq] at h
      rw [← h.1]
      rw [List.filter_append, List.filter_append]
      have he1 : ev1.filter isWaitE = [] := by
        rw [List.filter_eq_nil_iff]
        intro e he
        have := pipeBuild_no_wait os (cmd :: cmd.pipes) e (by rw [hb]; exact he)
        simp [this]
      have he2 : ev2.filter isWaitE = [] := by
        rw [List.filter_eq_nil_iff]
        intro e he
        have := pipeStart_no_wait os cmds e (by rw [hs]; exact he)
        simp [this]
      have he3 : (cmds.map (fun pc => Event.waitSync pc.1)).filter isWaitE =
          cmds.map (fun pc => Event.waitSync pc.1) := by
        rw [List.filter_eq_self]
        intro e he
        rcases List.mem_map.mp he with ⟨pc, -, rfl⟩
        rfl
      rw [he1, he2, he3]
      simp [pipeBuild_ok_length os (cmd :: cmd.pipes) cmds (by rw [hb])]

/-- Zeta-reduced unfolding of `executeSingle`. -/
theorem executeSingle_eq (os : OS) (sess : Session) (cmd : Command) :
    executeSingle os sess cmd =
      if IsBuiltin (ExpandAliases cmd sess.aliases).name then
        executeBuiltin os (ExpandAliases cmd sess.aliases)
      else executeExternal os (ExpandAliases cmd sess.aliases) := rfl

/-! ## Claims -/

/-- Claim C1, counterexample: the foreground external command `false`
(child exit status 1) makes `Execute` return the Go `ExitError`
`exit status 1`, which the REPL prints as `Error: exit status 1` — the
shell does escalate the nonzero exit, contradicting the claim that
execute completes without reporting an error. -/
theorem c1_counterexample :
    Execute osAllOk ⟨[]⟩ (some (.mk "false" [] [] none false)) =
      ([.resolveExec "false", .start "/bin/false" [], .waitSync "/bin/false"],
        .error "exit status 1") ∧
    ¬(Execute osAllOk ⟨[]⟩ (some (.mk "false" [] [] none false))).2 = .ok () ∧
    mainStep (Execute osAllOk ⟨[]⟩ (some (.mk "false" [] [] none false))).2 =
      .continueLoop (some "Error: exit status 1") :=
  ⟨rfl, fun h => Except.noConfusion h, rfl⟩

/-- Claim C1, amended: for every foreground external single-stage command
whose child exits with a nonzero status, `Execute` returns that status as
the error `exit status N` (Go's `ExitError` from `Cmd.Wait`), and the REPL
prints `Error: exit status N` and continues; the exit is escalated to a
printed error line, though never to a session abort. -/
theorem c1_nonzero_exit_reported (os : OS) (sess : Session) (name : String)
    (args : List String) (rd : Option Redirect) (path : String) (n : Nat)
    (halias : lookupAlias sess.aliases name = none)
    (hnb : IsBuiltin name = false)
    (hres : os.resolve name = some path)
    (hrd : setupRedirections os rd = .ok ())
    (hstart : os.startErr path args = none)
    (hexit : os.exitStatus path args = n) (hn : ¬n = 0) :
    Execute os sess (some (.mk name args [] rd false)) =
      ([.resolveExec name, .start path args, .waitSync path],
        .error ("exit status " ++ toString n)) ∧
    mainStep (.error ("exit status " ++ toString n)) =
      .continueLoop (some ("Error: " ++ ("exit status " ++ toString n))) := by
  constructor
  · rw [Execute_single os sess (.mk name args [] rd false) rfl]
    rw [executeSingle_eq]
    rw [ExpandAliases_none _ _ halias]
    rw [if_neg (by simp [Command.name, hnb])]
    simp only [executeExternal, Command.name, Command.redirect, Command.args,
      Command.background, hres, hrd, executeForeground, hstart, hexit,
      Bool.false_eq_true, if_false]
    rw [if_neg hn]
  · rw [mainStep]
    rw [if_neg (by
      intro hcon
      have hlen := congrArg String.length hcon
      rw [String.length_append] at hlen
      have h12 : ("exit status " : String).length = 12 := rfl
      have h4 : ("exit" : String).length = 4 := rfl
      omega)]

/-- Claim C1, witness for the amended theorem at the concrete command
`false` under `osAllOk`. -/
theorem c1_nonzero_exit_reported_witness :
    Execute osAllOk ⟨[]⟩ (some (.mk "false" [] [] none false)) =
      ([.resolveExec "false", .start "/bin/false" [], .waitSync "/bin/false"],
        .error ("exit status " ++ toString 1)) ∧
    mainStep (.error ("exit status " ++ toString 1)) =
      .continueLoop (some ("Error: " ++ ("exit status " ++ toString 1))) :=
  c1_nonzero_exit_reported osAllOk ⟨[]⟩ "false" [] none "/bin/false" 1
    rfl rfl rfl rfl rfl rfl (by decide)

/-- Claim C2, counterexample: a two-stage background pipeline
(`sleep 5 | tr &`) under `osAllOk`: `Execute` only returns after a
synchronous wait on every stage (two `waitSync` events in the caller's
trace), so a background pipeline does block the caller on the stages'
exit. -/
theorem c2_counterexample :
    Execute osAllOk ⟨[]⟩
      (some (.mk "sleep" ["5"] [.mk "tr" [] [] none false] none true)) =
      ([.resolveExec "sleep", .resolveExec "tr",
        .start "/bin/sleep" ["5"], .start "/bin/tr" [],
        .waitSync "/bin/sleep", .waitSync "/bin/tr"], .ok ()) ∧
    ((Execute osAllOk ⟨[]⟩
      (some (.mk "sleep" ["5"] [.mk "tr" [] [] none false] none true))).1.any
        isWaitE) = true :=
  ⟨rfl, rfl⟩

/-- Claim C2, amended: `executePipeline` never reads the background flag —
a background pipeline behaves exactly like the same foreground pipeline —
and whenever a pipeline run returns success the caller's trace holds one
synchronous wait per stage (the `wg.Wait()` join), so the caller always
blocks on every stage's exit. -/
theorem c2_background_pipelines_block :
    (∀ (os : OS) (sess : Session) (n : String) (a : List String)
        (ps : List Command) (rd : Option Redirect) (b1 b2 : Bool),
      ¬ps = [] →
        Execute os sess (some (.mk n a ps rd b1)) =
          Execute os sess (some (.mk n a ps rd b2))) ∧
    (∀ (os : OS) (sess : Session) (cmd : Command) (ev : List Event),
      0 < cmd.pipes.length → Execute os sess (some cmd) = (ev, .ok ()) →
        (ev.filter isWaitE).length = cmd.pipes.length + 1) := by
  constructor
  · intro os sess n a ps rd b1 b2 hps
    rcases ps with _ | ⟨p, ps2⟩
    · exact absurd rfl hps
    · rw [Execute_pipe os sess _ (by simp [Command.pipes]),
        Execute_pipe os sess _ (by simp [Command.pipes])]
      rfl
  · intro os sess cmd ev hlen h
    rw [Execute_pipe os sess cmd hlen] at h
    have := executePipeline_ok_waits os cmd ev h
    simpa using this

/-- Claim C2, witness for the amended theorem: the background flag of the
concrete pipeline `sleep 5 | tr` is irrelevant, and its successful run
waits once per stage. -/
theorem c2_background_pipelines_block_witness :
    Execute osAllOk ⟨[]⟩
        (some (.mk "sleep" ["5"] [.mk "tr" [] [] none false] none true)) =
      Execute osAllOk ⟨[]⟩
        (some (.mk "sleep" ["5"] [.mk "tr" [] [] none false] none false)) ∧
    (((Execute osAllOk ⟨[]⟩
      (some (.mk "sleep" ["5"] [.mk "tr" [] [] none false] none
        true))).1.filter isWaitE).length = 2) := by
  refine ⟨c2_background_pipelines_block.1 osAllOk ⟨[]⟩ "sleep" ["5"]
    [.mk "tr" [] [] none false] none true false (by simp), ?_⟩
  have := c2_background_pipelines_block.2 osAllOk ⟨[]⟩
    (.mk "sleep" ["5"] [.mk "tr" [] [] none false] none true)
    [.resolveExec "sleep", .resolveExec "tr",
      .start "/bin/sleep" ["5"], .start "/bin/tr" [],
      .waitSync "/bin/sleep", .waitSync "/bin/tr"]
    (by simp [Command.pipes]) rfl
  simpa using this

/-- Claim C3, counterexample: with alias `ll → ls -la` defined, executing
the pipeline `ll | tr` resolves the unexpanded head name `ll` (and fails
with `command not found: ll`); no alias expansion is applied to the head
stage of a pipeline, because `Execute` routes pipelines straight to
`executePipeline`, which never consults the alias table. -/
theorem c3_counterexample :
    Execute osMissing ⟨[("ll", "ls -la")]⟩
      (some (.mk "ll" [] [.mk "tr" [] [] none false] none false)) =
      ([.resolveExec "ll"], .error "command not found: ll") :=
  rfl

/-- Claim C3, amended: alias expansion (first word replaces the name, the
remaining words are prepended to the arguments) is applied only to
single-stage commands; a pipeline is executed without any alias
expansion — not even on its head stage — since `executePipeline` does not
depend on the session's aliases at all. -/
theorem c3_alias_expansion_single_only :
    (∀ (n : String) (a : List String) (p : List Command)
        (r : Option Redirect) (b : Bool) (aliases : List (String × String))
        (exp w : String) (ws : List String),
      lookupAlias aliases n = some exp → fieldsGo exp = w :: ws →
        ExpandAliases (.mk n a p r b) aliases = .mk w (ws ++ a) p r b) ∧
    (∀ (os : OS) (sess : Session) (cmd : Command), cmd.pipes = [] →
      Execute os sess (some cmd) =
        if IsBuiltin (ExpandAliases cmd sess.aliases).name then
          executeBuiltin os (ExpandAliases cmd sess.aliases)
        else executeExternal os (ExpandAliases cmd sess.aliases)) ∧
    (∀ (os : OS) (a1 a2 : List (String × String)) (cmd : Command),
      0 < cmd.pipes.length →
        Execute os ⟨a1⟩ (some cmd) = Execute os ⟨a2⟩ (some cmd)) := by
  refine ⟨ExpandAliases_some, ?_, ?_⟩
  · intro os sess cmd hps
    rw [Execute_single os sess cmd hps]
    exact executeSingle_eq os sess cmd
  · intro os a1 a2 cmd hlen
    rw [Execute_pipe os ⟨a1⟩ cmd hlen, Execute_pipe os ⟨a2⟩ cmd hlen]

/-- Claim C3, witness for the amended theorem: concrete alias expansion of
`g → git log`, the single-stage dispatch shape, and alias-independence of
a concrete pipeline. -/
theorem c3_alias_expansion_single_only_witness :
    ExpandAliases (.mk "g" ["-n"] [] none false) [("g", "git log")] =
      .mk "git" (["log"] ++ ["-n"]) [] none false ∧
    Execute osMissing ⟨[("ll", "ls -la")]⟩
        (some (.mk "ll" [] [.mk "tr" [] [] none false] none false)) =
      Execute osMissing ⟨[]⟩
        (some (.mk "ll" [] [.mk "tr" [] [] none false] none false)) :=
  ⟨c3_alias_expansion_single_only.1 "g" ["-n"] [] none false
      [("g", "git log")] "git log" "git" ["log"] rfl rfl,
    c3_alias_expansion_single_only.2.2 osMissing [("ll", "ls -la")] []
      (.mk "ll" [] [.mk "tr" [] [] none false] none false)
      (by simp [Command.pipes])⟩

/-- Claim C4 (confirmed): a single-stage command whose (unaliased) name is
registered in `builtinCommands` but is not one of the twelve names of the
dispatch switch fails with `unknown built-in command: <name>`, with an
empty trace — no PATH resolution and no process start is ever
attempted. -/
theorem c4_unknown_builtin (os : OS) (sess : Session) (name : String)
    (args : List String) (rd : Option Redirect) (bg : Bool)
    (halias : lookupAlias sess.aliases name = none)
    (hmem : name ∈ builtinNames) (hnd : ¬name ∈ dispatchedBuiltins) :
    Execute os sess (some (.mk name args [] rd bg)) =
      ([], .error ("unknown built-in command: " ++ name)) := by
  rw [Execute_single os sess (.mk name args [] rd bg) rfl]
  rw [executeSingle_eq]
  rw [ExpandAliases_none _ _ halias]
  rw [if_pos (by
    rw [show (Command.mk name args [] rd bg).name = name from rfl]
    exact IsBuiltin_of_mem name hmem)]
  rw [executeBuiltin_default os _ (by
    rw [show (Command.mk name args [] rd bg).name = name from rfl]
    exact hnd)]
  rfl

/-- Claim C4, witness at the registered-but-undispatched name `ls` (other
examples from the claim — `cat`, `grep`, `sort`, `ps` — are registry
members of exactly the same kind). -/
theorem c4_unknown_builtin_witness :
    Execute osAllOk ⟨[]⟩ (some (.mk "ls" ["-la"] [] none false)) =
      ([], .error ("unknown built-in command: " ++ "ls")) :=
  c4_unknown_builtin osAllOk ⟨[]⟩ "ls" ["-la"] none false rfl
    (by decide) (by decide)

/-- Claim C7, counterexample: the pipeline `nosuch | echo` has a built-in
stage (`echo`), yet execution fails with `command not found: nosuch`
rather than the `UnsupportedBuiltinInPipeline` error, because the stages
are examined in order and the unresolvable external head fails first. -/
theorem c7_counterexample :
    Execute osMissing ⟨[]⟩
      (some (.mk "nosuch" [] [.mk "echo" ["hi"] [] none false] none false)) =
      ([.resolveExec "nosuch"], .error "command not found: nosuch") ∧
    ¬(Execute osMissing ⟨[]⟩
      (some (.mk "nosuch" [] [.mk "echo" ["hi"] [] none
        false] none false))).2 =
      .error "built-in commands in pipelines not yet supported" := by
  refine ⟨rfl, ?_⟩
  intro h
  have := Except.error.inj h
  exact absurd this (by decide)

/-- Claim C7, amended: a multi-stage pipeline containing a built-in stage
never starts any process and always fails; the error is
`built-in commands in pipelines not yet supported` provided every
non-built-in stage resolves (otherwise an earlier stage's
`command not found` is reported first). -/
theorem c7_builtin_in_pipeline (os : OS) (sess : Session) (cmd : Command)
    (hlen : 0 < cmd.pipes.length)
    (hb : ∃ c ∈ cmd :: cmd.pipes, IsBuiltin c.name = true) :
    ((∀ e ∈ (Execute os sess (some cmd)).1, isStartE e = false) ∧
      ∃ msg, (Execute os sess (some cmd)).2 = .error msg) ∧
    ((∀ c ∈ cmd :: cmd.pipes, IsBuiltin c.name = false →
        (os.resolve c.name).isSome) →
      (Execute os sess (some cmd)).2 =
        .error "built-in commands in pipelines not yet supported") := by
  have hE := Execute_pipe os sess cmd hlen
  constructor
  · have hnok := pipeBuild_builtin_not_ok os (cmd :: cmd.pipes) hb
    rcases hpb : (pipeBuild os (cmd :: cmd.pipes)).2 with e | cmds
    · have hbe := executePipeline_build_err os cmd e hpb
      rw [hE, hbe]
      exact ⟨fun ev hev => pipeBuild_no_start os (cmd :: cmd.pipes) ev hev,
        ⟨e, rfl⟩⟩
    · exact absurd hpb (hnok cmds)
  · intro hres
    have hberr := pipeBuild_builtin_err os (cmd :: cmd.pipes) hb hres
    rw [hE, executePipeline_build_err os cmd _ hberr]

/-- Claim C7, witness for the amended theorem at the concrete pipeline
`sleep 1 | grep x` (second stage `grep` is registry-built-in, first stage
resolves): the error is the unsupported-built-in one and no start event
occurs. -/
theorem c7_builtin_in_pipeline_witness :
    ((∀ e ∈ (Execute osAllOk ⟨[]⟩ (some (.mk "sleep" ["1"]
        [.mk "grep" ["x"] [] none false] none false))).1,
      isStartE e = false) ∧
      ∃ msg, (Execute osAllOk ⟨[]⟩ (some (.mk "sleep" ["1"]
        [.mk "grep" ["x"] [] none false] none false))).2 = .error msg) ∧
    (Execute osAllOk ⟨[]⟩ (some (.mk "sleep" ["1"]
        [.mk "grep" ["x"] [] none false] none false))).2 =
      .error "built-in commands in pipelines not yet supported" := by
  have h := c7_builtin_in_pipeline osAllOk ⟨[]⟩
    (.mk "sleep" ["1"] [.mk "grep" ["x"] [] none false] none false)
    (by simp [Command.pipes])
    ⟨.mk "grep" ["x"] [] none false, by simp [Command.pipes], by decide⟩
  exact ⟨h.1, h.2 (by
    intro c hc hcb
    simp [Command.pipes] at hc
    rcases hc with rfl | rfl <;> rfl)⟩

/-- Claim C5, counterexample: the all-whitespace input `" "` fails with
`unexpected end of input` (`UnexpectedEnd`), not with the `empty command`
error (`EmptyInput`) the claim predicts — only the literally empty string
takes the `EmptyInput` branch. -/
theorem c5_counterexample :
    Parse " " = .error .unexpectedEnd ∧ ¬Parse " " = .error .emptyInput :=
  ⟨rfl, fun h => ParseErr.noConfusion (Except.error.inj
    ((show Parse " " = Except.error ParseErr.unexpectedEnd from
      rfl).symm.trans h))⟩

/-- Claim C5, amended: blank input is rejected with no partial command,
but the error splits: the empty string fails with `empty command`
(`EmptyInput`), while a nonempty all-whitespace string is consumed by the
whitespace skip and then fails with `unexpected end of input`
(`UnexpectedEnd`). -/
theorem c5_blank_input_errors :
    Parse "" = .error .emptyInput ∧
    ∀ (s : String), ¬s = "" → s.data.all isSpaceB = true →
      Parse s = .error .unexpectedEnd := by
  refine ⟨rfl, ?_⟩
  intro s hne hsp
  have hsk := skipWs_all_space s.data hsp
  have hpsc : parseSimpleCommand s.data = .error .unexpectedEnd := by
    rw [parseSimpleCommand, hsk]
  have hpc : parseCommand s.data = .error .unexpectedEnd := by
    rw [parseCommand, hpsc]
  rw [Parse, if_neg hne, hpc]

/-- Claim C5, witness for the amended theorem at the inputs `""` and
`" "`. -/
theorem c5_blank_input_errors_witness :
    Parse "" = .error .emptyInput ∧ Parse " " = .error .unexpectedEnd :=
  ⟨c5_blank_input_errors.1, c5_blank_input_errors.2 " " (by decide) rfl⟩

/-- Claim C6 (confirmed): a well-formed quoted token — any characters
other than the quote character and the backslash, pipes, redirects and
spaces included — becomes one literal argument with the quotes elided;
in particular `echo "a|b"` parses to name `echo` with the single argument
`a|b` and no pipeline stage. -/
theorem c6_quoted_literal (q : Char) (nm s : List Char)
    (hq : q = '"' ∨ q = '\'') (hnm : plainTok nm = true) (hs : ¬s = [])
    (hsc : ∀ c ∈ s, ¬c = q ∧ ¬c = '\\') :
    Parse (String.mk (nm ++ ' ' :: q :: (s ++ [q]))) =
      .ok (.mk (String.mk nm) [String.mk s] [] none false) := by
  have hqs : isSpaceB q = false := by rcases hq with rfl | rfl <;> decide
  obtain ⟨c, n2, rfl⟩ : ∃ c n2, nm = c :: n2 := by
    rcases nm with _ | ⟨c, n2⟩
    · simp [plainTok] at hnm
    · exact ⟨c, n2, rfl⟩
  have hc : plainChar c = true := by
    simp only [plainTok, Bool.and_eq_true, List.all_eq_true] at hnm
    exact hnm.2 c (by simp)
  have hname : parseToken ((c :: n2) ++ ' ' :: q :: (s ++ [q])) =
      .ok (String.mk (c :: n2), ' ' :: q :: (s ++ [q])) :=
    parseToken_plain (c :: n2) _ hnm (Or.inr ⟨' ', _, rfl, by decide⟩)
  have hskip : skipWs ((c :: n2) ++ ' ' :: q :: (s ++ [q])) =
      c :: (n2 ++ ' ' :: q :: (s ++ [q])) := by
    rw [List.cons_append]
    exact skipWs_noSpace c _ (plainChar_spec c hc).1
  have hpsc : parseSimpleCommand ((c :: n2) ++ ' ' :: q :: (s ++ [q])) =
      argLoop (' ' :: q :: (s ++ [q]))
        (.mk (String.mk (c :: n2)) [] [] none false) := by
    rw [parseSimpleCommand, hskip]
    dsimp only
    rw [show c :: (n2 ++ ' ' :: q :: (s ++ [q])) =
      (c :: n2) ++ ' ' :: q :: (s ++ [q]) from
        (List.cons_append c n2 _).symm]
    rw [hname]
  have harg : argLoop (' ' :: q :: (s ++ [q]))
      (.mk (String.mk (c :: n2)) [] [] none false) =
      .ok ((Command.mk (String.mk (c :: n2)) [] [] none
        false).pushArg (String.mk s), []) := by
    rw [argLoop_eq]
    have hsk2 : skipWs (' ' :: q :: (s ++ [q])) = q :: (s ++ [q]) := by
      rw [skipWs_cons_space ' ' _ (by decide)]
      exact skipWs_noSpace q _ hqs
    rw [hsk2]
    dsimp only
    rw [if_neg (by rcases hq with rfl | rfl <;> simp)]
    rw [if_neg (by rcases hq with rfl | rfl <;> decide)]
    have hrd : parseRedirect (q :: (s ++ [q])) = none := by
      rcases hq with rfl | rfl <;> rfl
    rw [hrd]
    rw [parseToken_quoted q s [] hq hs hsc (Or.inl rfl)]
    rfl
  have hpc : parseCommand ((c :: n2) ++ ' ' :: q :: (s ++ [q])) =
      .ok ((Command.mk (String.mk (c :: n2)) [] [] none
        false).pushArg (String.mk s), []) := by
    rw [parseCommand, hpsc, harg]
    rfl
  exact Parse_render _ _ [] (by simp) hpc

/-- Claim C6, witness at the input `echo "a|b"`: one argument `a|b`, no
pipeline. -/
theorem c6_quoted_literal_witness :
    Parse (String.mk ("echo".data ++ ' ' :: '"' :: ("a|b".data ++ ['"']))) =
      .ok (.mk (String.mk "echo".data) [String.mk "a|b".data] [] none
        false) :=
  c6_quoted_literal '"' "echo".data "a|b".data (Or.inl rfl) (by decide)
    (by decide) (by decide)

/-- Claim C8, counterexample: `a | b &` ends in an unescaped, unquoted
trailing `&`, yet the returned head command has `background = false` —
the parser sets the flag on the final stage `b` (nested in the head's
pipeline successors), not on the Command it returns. -/
theorem c8_counterexample :
    Parse "a | b &" =
      .ok (.mk "a" [] [.mk "b" [] [] none true] none false) ∧
    ("a | b &").data.getLast? = some '&' ∧
    ¬(Command.background (.mk "a" [] [.mk "b" [] [] none true] none
      false)) = true :=
  ⟨rfl, rfl, by decide⟩

/-- Claim C8, amended: for a single-stage line of plain tokens ending in a
trailing `&`, the parsed command has `background = true` and the `&` is
not among the arguments; and in general the returned head command can have
`background = true` only when the line's final character is `&`.  (For a
multi-stage line the trailing `&` sets the flag of the last stage, not of
the returned head.) -/
theorem c8_trailing_amp (nm : List Char) (as : List (List Char))
    (hnm : plainTok nm = true) (has : ∀ a ∈ as, plainTok a = true) :
    Parse (String.mk ((nm ++ renderArgs as) ++ [' ', '&'])) =
      .ok (.mk (String.mk nm) (as.map String.mk) [] none true) ∧
    (∀ x ∈ as.map String.mk, ¬x = "&") ∧
    (∀ (s : String) (c : Command), Parse s = .ok c → c.background = true →
      s.data.getLast? = some '&') := by
  refine ⟨?_, ?_, fun s c h hb => Parse_background s c h hb⟩
  · apply Parse_render _ _ []
    · intro hcon
      rcases List.append_eq_nil.mp hcon with ⟨-, h2⟩
      exact List.noConfusion h2
    · rw [parseCommand]
      rw [parseSimpleCommand_render nm as [' ', '&'] hnm has
        (Or.inr (Or.inr (Or.inl ⟨_, rfl⟩)))]
      rw [argLoop_space_amp]
      rfl
  · intro x hx hcon
    obtain ⟨a, ha, rfl⟩ := List.mem_map.mp hx
    have hda : a = ['&'] := by
      have := congrArg String.data hcon
      simpa using this
    have hpa := has a ha
    rw [hda] at hpa
    exact absurd hpa (by decide)

/-- Claim C8, witness for the amended theorem at the line `sleep 5 &`. -/
theorem c8_trailing_amp_witness :
    Parse (String.mk (("sleep".data ++ renderArgs [['5']]) ++ [' ', '&'])) =
      .ok (.mk (String.mk "sleep".data) (List.map String.mk [['5']]) []
        none true) ∧
    (∀ x ∈ List.map String.mk [['5']], ¬x = "&") ∧
    (∀ (s : String) (c : Command), Parse s = .ok c → c.background = true →
      s.data.getLast? = some '&') :=
  c8_trailing_amp "sleep".data [['5']] (by decide) (by decide)

/-- Claim C9 (confirmed): parsing a rendered well-formed pipeline of
`N = 1 + length ss` stages yields a head command carrying the first
stage's name and arguments and exactly `N - 1` pipeline successors, in
order, each being exactly the Command of its stage (same token rules for
every stage). -/
theorem c9_pipeline_roundtrip (s0 : List Char × List (List Char))
    (ss : List (List Char × List (List Char))) (h0 : wfStage s0)
    (hss : ∀ st ∈ ss, wfStage st) :
    Parse (String.mk (stageRender s0 ++ tailRender ss)) =
      .ok (.mk (String.mk s0.1) (s0.2.map String.mk) (ss.map mkStage) none
        false) ∧
    (ss.map mkStage).length = ss.length := by
  refine ⟨?_, by simp⟩
  apply Parse_render _ _ [] ?_ (parseCommand_render s0 ss h0 hss)
  intro hcon
  have h1 := h0.1
  simp only [plainTok, Bool.and_eq_true] at h1
  rcases hx : s0.1 with _ | ⟨c, t⟩
  · rw [hx] at h1
    simp at h1
  · rw [show stageRender s0 = s0.1 ++ renderArgs s0.2 from rfl, hx] at hcon
    simp at hcon

/-- Claim C9, witness at the three-stage pipeline `a | b x | c`. -/
theorem c9_pipeline_roundtrip_witness :
    Parse (String.mk (stageRender (['a'], []) ++
        tailRender [(['b'], [['x']]), (['c'], [])])) =
      .ok (.mk (String.mk ['a']) [] [mkStage (['b'], [['x']]),
        mkStage (['c'], [])] none false) ∧
    (([(['b'], [['x']]), (['c'], [])].map mkStage)).length = 2 :=
  c9_pipeline_roundtrip (['a'], []) [(['b'], [['x']]), (['c'], [])]
    (by constructor <;> decide) (by
      intro st hst
      rcases List.mem_cons.mp hst with rfl | hst2
      · constructor <;> decide
      · rcases List.mem_cons.mp hst2 with rfl | hst3
        · constructor <;> decide
        · exact absurd hst3 (List.not_mem_nil st))

/-- Claim C10 (confirmed): a token that collapses to zero characters after
quote elision — a plain command name followed by two adjacent identical
quotes at the end of the line, as in `echo ""` — is rejected with the
`empty token` error (`EmptyToken`); no empty-string argument is
produced. -/
theorem c10_empty_token (nm : List Char) (q : Char)
    (hnm : plainTok nm = true) (hq : q = '"' ∨ q = '\'') :
    Parse (String.mk (nm ++ [' ', q, q])) = .error .emptyToken := by
  have hne : ¬(nm ++ [' ', q, q]) = [] := by simp
  rw [Parse]
  rw [if_neg (by
    intro hcon
    exact hne (by simpa using congrArg String.data hcon))]
  rw [show (String.mk (nm ++ [' ', q, q])).data = nm ++ [' ', q, q] from rfl]
  rw [parseCommand]
  rw [show nm ++ [' ', q, q] = (nm ++ renderArgs []) ++ [' ', q, q] from by
    simp [renderArgs]]
  rw [parseSimpleCommand_render nm [] [' ', q, q] hnm (by simp)
    (Or.inr (Or.inr (Or.inl ⟨_, rfl⟩)))]
  rcases hq with rfl | rfl <;> rfl

/-- Claim C10, witness at the input `echo ""`. -/
theorem c10_empty_token_witness :
    Parse (String.mk ("echo".data ++ [' ', '"', '"'])) =
      .error .emptyToken :=
  c10_empty_token "echo".data '"' (by decide) (Or.inl rfl)

end Gex
